import Mathlib

/-!
Verification development for the big-map state engine of mavryk-network/tzindex.

The engine lives in two source files:
  * the block indexer (`BigmapIndex`): `ConnectBlock`, `DisconnectBlock`,
    `DeleteBlock` and the per-diff application logic;
  * the history cache (`etl/cache/bigmap.go`): `BigmapHistory`,
    `BigmapHistoryCache.Build/Update/GetBest` and `BigmapHistory.Range`.

The shallow embedding below models the three durable tables (allocations,
updates, live values) as Lean lists in primary-key order, store-assigned row
ids as explicit counters, the allocation cache and the per-block temporary
scratch map as association lists, and byte strings as `List Nat`.  The 64-bit
`key_id` hash (`model.GetKeyId`, whose source is not part of this tree) is a
parameter `Hf : Int → List Nat → Nat`; everything that matters about it in the
code is that it may collide, which the parameterisation preserves.
-/

set_option maxHeartbeats 1000000

namespace TzIndex

/-- Diff actions (`micheline.DiffAction`): Alloc, Copy, Update, Remove. -/
inductive Action where
  | alloc
  | copy
  | update
  | remove
deriving DecidableEq, Repr

/-- Modelled from the spec: the persistent allocation record for one big-map
(`model.BigmapAlloc`; its source file is not part of this tree).  `height` is
the allocation height (column `h`), `updated` the last-updated height,
`deleted` the deletion height (0 while live). -/
structure BigmapAlloc where
  rowId : Nat
  bigmapId : Int
  height : Int
  updated : Int
  deleted : Int
  nKeys : Int
  nUpdates : Int
  keyType : Nat
  valueType : Nat
deriving DecidableEq, Repr

/-- Modelled from the spec: one append-only update-log row
(`model.BigmapUpdate`).  `key` holds the key-hash bytes (what `GetKeyHash`
reads), `keyId` the 64-bit hash column. -/
structure BigmapUpdate where
  rowId : Nat
  bigmapId : Int
  height : Int
  action : Action
  keyId : Nat
  key : List Nat
  value : List Nat
  sourceId : Int
deriving DecidableEq, Repr

/-- Modelled from the spec: one live-value row (`model.BigmapValue`). -/
structure BigmapValue where
  rowId : Nat
  bigmapId : Int
  keyId : Nat
  key : List Nat
  value : List Nat
deriving DecidableEq, Repr

/-- One big-map event (`micheline.BigmapEvent`): the diff payload delivered by
the builder.  `keyHash = none` models an invalid (zero) key hash, as tested by
`diff.KeyHash.IsValid()`; types are opaque serialised descriptors. -/
structure BigmapEvent where
  action : Action
  id : Int
  sourceId : Int
  destId : Int
  keyHash : Option (List Nat)
  value : List Nat
  keyType : Nat
  valueType : Nat
deriving DecidableEq, Repr

/-- One operation of a block, restricted to the fields the engine reads:
`IsInternal`, `IsSuccess`, the ordered big-map events, the operation height
and the contract script's annotated big-map type pairs
(`op.Contract.LoadScript().BigmapTypes()`). -/
structure Op where
  height : Int
  isInternal : Bool
  isSuccess : Bool
  scriptTypes : List (Nat × Nat)
  events : List BigmapEvent
deriving DecidableEq, Repr

/-- A block: height, protocol version (`block.Params.Version`) and ordered
operations. -/
structure Block where
  height : Int
  version : Nat
  ops : List Op
deriving DecidableEq, Repr

/-- Association-list lookup (first matching key). -/
def alLookup {κ α : Type} [DecidableEq κ] : List (κ × α) → κ → Option α
  | [], _ => none
  | p :: rest, k => if p.1 = k then some p.2 else alLookup rest k

/-- Association-list insert-or-replace (map assignment). -/
def alInsert {κ α : Type} [DecidableEq κ] (l : List (κ × α)) (k : κ) (v : α) :
    List (κ × α) :=
  if l.any (fun p => decide (p.1 = k)) then
    l.map (fun p => if p.1 = k then (k, v) else p)
  else
    l ++ [(k, v)]

/-- Association-list delete (map `delete`). -/
def alErase {κ α : Type} [DecidableEq κ] (l : List (κ × α)) (k : κ) :
    List (κ × α) :=
  l.filter (fun p => decide (¬ p.1 = k))

/-- Replace the first element satisfying `p` (Go `l[pos] = v` after an index
search that breaks at the first match). -/
def replaceFirst {α : Type} (l : List α) (p : α → Bool) (v : α) : List α :=
  match l with
  | [] => []
  | x :: xs => if p x then v :: xs else x :: replaceFirst xs p v

/-- Erase the first element satisfying `p` (Go
`append(l[:pos], l[pos+1:]...)` after a first-match index search). -/
def eraseFirst {α : Type} (l : List α) (p : α → Bool) : List α :=
  match l with
  | [] => []
  | x :: xs => if p x then xs else x :: eraseFirst xs p

section Engine

/- `model.GetKeyId(bigmapId, keyHash)`: the 64-bit key hash.  Modelled from
the spec as an arbitrary parameter, since the `etl/model` sources are not in
this tree; collisions are possible and are the point of several claims. -/
variable (Hf : Int → List Nat → Nat)

/-- Modelled from the spec: `model.NewBigmapAlloc(op, diff)` — a fresh
allocation record for `diff.Id` at the operation's height. -/
def NewBigmapAlloc (op : Op) (d : BigmapEvent) : BigmapAlloc :=
  { rowId := 0, bigmapId := d.id, height := op.height, updated := op.height,
    deleted := 0, nKeys := 0, nUpdates := 0,
    keyType := d.keyType, valueType := d.valueType }

/-- Modelled from the spec: `model.CopyBigmapAlloc(src, op, destId)` — clone
the type fields of `src` into a fresh allocation for `destId`, allocated at
the operation's height. -/
def CopyBigmapAlloc (src : BigmapAlloc) (op : Op) (destId : Int) : BigmapAlloc :=
  { rowId := 0, bigmapId := destId, height := op.height, updated := op.height,
    deleted := 0, nKeys := 0, nUpdates := 0,
    keyType := src.keyType, valueType := src.valueType }

/-- Modelled from the spec: `alloc.ToUpdate(op)` — the `Alloc` update-log row
(zero key hash). -/
def BigmapAlloc.toUpdate (a : BigmapAlloc) (op : Op) : BigmapUpdate :=
  { rowId := 0, bigmapId := a.bigmapId, height := op.height, action := .alloc,
    keyId := Hf a.bigmapId [], key := [], value := [], sourceId := 0 }

/-- Modelled from the spec: `alloc.ToRemove(op)` — the terminal `Remove`
update-log row for the whole big-map (zero key hash). -/
def BigmapAlloc.toRemove (a : BigmapAlloc) (op : Op) : BigmapUpdate :=
  { rowId := 0, bigmapId := a.bigmapId, height := op.height, action := .remove,
    keyId := Hf a.bigmapId [], key := [], value := [], sourceId := 0 }

/-- Modelled from the spec: `alloc.ToUpdateCopy(op, sourceId)` — the `Copy`
update-log row for the destination big-map referencing the source. -/
def BigmapAlloc.toUpdateCopy (a : BigmapAlloc) (op : Op) (sourceId : Int) :
    BigmapUpdate :=
  { rowId := 0, bigmapId := a.bigmapId, height := op.height, action := .copy,
    keyId := Hf a.bigmapId [], key := [], value := [], sourceId := sourceId }

/-- Modelled from the spec: `model.NewBigmapValue(diff, height)` — a live
value holding the diff's key hash and value bytes. -/
def NewBigmapValue (d : BigmapEvent) (_height : Int) : BigmapValue :=
  { rowId := 0, bigmapId := d.id, keyId := Hf d.id (d.keyHash.getD []),
    key := d.keyHash.getD [], value := d.value }

/-- Modelled from the spec: `model.CopyBigmapValue(v, destId, height)` — the
same key/value re-tagged with the destination big-map id. -/
def CopyBigmapValue (v : BigmapValue) (destId : Int) (_height : Int) :
    BigmapValue :=
  { rowId := 0, bigmapId := destId, keyId := Hf destId v.key,
    key := v.key, value := v.value }

/-- Modelled from the spec: `model.NewBigmapUpdate(op, diff)` — the update-log
row recording one diff. -/
def NewBigmapUpdate (op : Op) (d : BigmapEvent) : BigmapUpdate :=
  { rowId := 0, bigmapId := d.id, height := op.height, action := d.action,
    keyId := Hf d.id (d.keyHash.getD []), key := d.keyHash.getD [],
    value := d.value, sourceId := 0 }

/-- Modelled from the spec: `value.ToUpdateCopy(op)` — a per-key `Copy`
update-log row for a copied live value. -/
def BigmapValue.toUpdateCopy (v : BigmapValue) (op : Op) : BigmapUpdate :=
  { rowId := 0, bigmapId := v.bigmapId, height := op.height, action := .copy,
    keyId := v.keyId, key := v.key, value := v.value, sourceId := 0 }

/-- Modelled from the spec: `value.ToUpdateRemove(op)` — a per-key `Remove`
update-log row for a deleted live value. -/
def BigmapValue.toUpdateRemove (v : BigmapValue) (op : Op) : BigmapUpdate :=
  { rowId := 0, bigmapId := v.bigmapId, height := op.height, action := .remove,
    keyId := v.keyId, key := v.key, value := [], sourceId := 0 }

/-- Modelled from the spec: `upd.ToKV()` — rebuild a live value from an
update-log row's payload. -/
def BigmapUpdate.toKV (u : BigmapUpdate) : BigmapValue :=
  { rowId := 0, bigmapId := u.bigmapId, keyId := u.keyId,
    key := u.key, value := u.value }

/-- Engine failure: a returned error (`fmt.Errorf`) or a runtime crash (nil
pointer dereference). -/
inductive Fail where
  | err
  | crash
deriving DecidableEq, Repr

/-- The temporary scratch record (`InMemoryBigmap`): an allocation plus
pending update and live-value lists. -/
structure InMemoryBigmap where
  alloc : BigmapAlloc
  updates : List BigmapUpdate
  live : List BigmapValue
deriving DecidableEq, Repr

/-- `NewInMemoryBigmap(alloc)`. -/
def NewInMemoryBigmap (a : BigmapAlloc) : InMemoryBigmap :=
  { alloc := a, updates := [], live := [] }

/-- The per-block scratch map: temporary big-map id → scratch. -/
abbrev Tmp : Type := List (Int × InMemoryBigmap)

/-- The durable state of the index: three tables in primary-key order, the
allocation cache, and the store's next row ids (strictly monotone, assigned
on insert). -/
structure EngineState where
  allocTable : List BigmapAlloc
  updateTable : List BigmapUpdate
  valueTable : List BigmapValue
  allocCache : List (Int × BigmapAlloc)
  nextAllocRow : Nat
  nextUpdateRow : Nat
  nextValueRow : Nat
deriving DecidableEq, Repr

def emptyState : EngineState :=
  { allocTable := [], updateTable := [], valueTable := [], allocCache := [],
    nextAllocRow := 1, nextUpdateRow := 1, nextValueRow := 1 }

/-- `allocTable.Insert`: assign the next row id and append. -/
def insertAllocRow (s : EngineState) (a : BigmapAlloc) :
    BigmapAlloc × EngineState :=
  let a := { a with rowId := s.nextAllocRow }
  (a, { s with
        allocTable := s.allocTable ++ [a],
        nextAllocRow := s.nextAllocRow + 1 })

/-- `updateTable.Insert` for a single row. -/
def insertUpdateRow (s : EngineState) (u : BigmapUpdate) : EngineState :=
  { s with
    updateTable := s.updateTable ++ [{ u with rowId := s.nextUpdateRow }],
    nextUpdateRow := s.nextUpdateRow + 1 }

/-- `updateTable.Insert` for a batch, in delivered order. -/
def insertUpdateRows (s : EngineState) (us : List BigmapUpdate) : EngineState :=
  us.foldl insertUpdateRow s

/-- `valueTable.Insert` for a single row. -/
def insertValueRow (s : EngineState) (v : BigmapValue) :
    BigmapValue × EngineState :=
  let v := { v with rowId := s.nextValueRow }
  (v, { s with
        valueTable := s.valueTable ++ [v],
        nextValueRow := s.nextValueRow + 1 })

/-- `valueTable.Insert` for a batch, in delivered order. -/
def insertValueRows (s : EngineState) (vs : List BigmapValue) : EngineState :=
  vs.foldl (fun s v => (insertValueRow s v).2) s

/-- `valueTable.Update`: replace the row with the same primary key. -/
def updateValueRow (s : EngineState) (v : BigmapValue) : EngineState :=
  { s with valueTable :=
      s.valueTable.map (fun w => if w.rowId = v.rowId then v else w) }

/-- `allocTable.Update`: replace the row with the same primary key. -/
def updateAllocRow (s : EngineState) (a : BigmapAlloc) : EngineState :=
  { s with allocTable :=
      s.allocTable.map (fun w => if w.rowId = a.rowId then a else w) }

/-- `valueTable.DeleteIds`. -/
def deleteValueIds (s : EngineState) (ids : List Nat) : EngineState :=
  { s with valueTable :=
      s.valueTable.filter (fun v => decide (¬ v.rowId ∈ ids)) }

/-- `allocCache.Add`. -/
def cacheAdd (s : EngineState) (k : Int) (a : BigmapAlloc) : EngineState :=
  { s with allocCache := alInsert s.allocCache k a }

/-- `idx.loadAlloc(ctx, id)`: allocation cache first, then an equality scan of
the alloc table.  A missing allocation decodes as the zero record and is still
cached (packdb `Execute` into a fresh struct). -/
def loadAlloc (s : EngineState) (id : Int) : BigmapAlloc × EngineState :=
  match alLookup s.allocCache id with
  | some a => (a, s)
  | none =>
    let a := (s.allocTable.find? (fun r => decide (r.bigmapId = id))).getD
      { rowId := 0, bigmapId := 0, height := 0, updated := 0, deleted := 0,
        nKeys := 0, nUpdates := 0, keyType := 0, valueType := 0 }
    (a, cacheAdd s id a)

/-- In Go the loaded allocation is a shared pointer: field writes are visible
through the cache without a further `Add`.  Writing a mutated allocation back
to the table therefore also refreshes the cache entry it aliases. -/
def storeAlloc (s : EngineState) (id : Int) (a : BigmapAlloc) : EngineState :=
  cacheAdd (updateAllocRow s a) id a

/-- The `DiffActionAlloc` type-reconciliation step of `ConnectBlock`
(post-Jakarta): when the protocol version is ≥ 13 and `diff.Id > 0`, look for
the first script big-map type pair whose unfolded sides equal the diff's
unfolded declared types and overwrite the diff's types with the annotated
pair; keep the declared types when no pair matches (logged, non-fatal).
`unf` models `Typedef("").Unfold()` on the opaque type descriptors. -/
def reconcileAllocTypes (unf : Nat → Nat) (ver : Nat)
    (scriptTypes : List (Nat × Nat)) (d : BigmapEvent) : BigmapEvent :=
  if 13 ≤ ver ∧ 0 < d.id then
    match scriptTypes.find? (fun p =>
        decide (unf p.1 = unf d.keyType ∧ unf p.2 = unf d.valueType)) with
    | some p => { d with keyType := p.1, valueType := p.2 }
    | none => d
  else
    d

/-- `DiffActionAlloc` branch of `ConnectBlock`. -/
def applyAllocDiff (ver : Nat) (unf : Nat → Nat) (op : Op) (d : BigmapEvent)
    (s : EngineState) (tmp : Tmp) : EngineState × Tmp :=
  let d := reconcileAllocTypes unf ver op.scriptTypes d
  if d.id < 0 then
    (s, alInsert tmp d.id (NewInMemoryBigmap (NewBigmapAlloc op d)))
  else
    let (a, s) := insertAllocRow s (NewBigmapAlloc op d)
    let s := cacheAdd s a.bigmapId a
    let s := insertUpdateRow s (a.toUpdate Hf op)
    (s, tmp)

/-- The batched persist step at the end of the `DiffActionCopy` branch:
negative destination ids stay in the scratch map, non-negative ones are
inserted as three batches (alloc, live values, update rows). -/
def storeCopied (d : BigmapEvent) (alloc : BigmapAlloc)
    (live : List BigmapValue) (updates : List BigmapUpdate)
    (s : EngineState) (tmp : Tmp) : EngineState × Tmp :=
  if d.destId < 0 then
    (s, alInsert tmp d.destId
      { alloc := alloc, updates := updates, live := live })
  else
    let (a, s) := insertAllocRow s alloc
    let s := cacheAdd s a.bigmapId a
    let s := insertValueRows s live
    let s := insertUpdateRows s updates
    (s, tmp)

/-- `DiffActionCopy` branch of `ConnectBlock`. -/
def applyCopyDiff (op : Op) (d : BigmapEvent) (s : EngineState) (tmp : Tmp) :
    Except Fail (EngineState × Tmp) :=
  if d.sourceId < 0 then
    match alLookup tmp d.sourceId with
    | none => .error .err
    | some bm =>
      let alloc := CopyBigmapAlloc bm.alloc op d.destId
      let live := bm.live.map (fun v => CopyBigmapValue Hf v d.destId op.height)
      let updates := alloc.toUpdateCopy Hf op d.sourceId ::
        live.map (fun c => c.toUpdateCopy op)
      let alloc := { alloc with
                     nKeys := (live.length : Int),
                     nUpdates := (live.length : Int) }
      .ok (storeCopied d alloc live updates s tmp)
  else
    let (srcAlloc, s) := loadAlloc s d.sourceId
    let alloc := CopyBigmapAlloc srcAlloc op d.destId
    let live := (s.valueTable.filter
        (fun r => decide (r.bigmapId = d.sourceId))).map
      (fun v => CopyBigmapValue Hf v d.destId op.height)
    let updates := alloc.toUpdateCopy Hf op d.sourceId ::
      live.map (fun c => c.toUpdateCopy op)
    let alloc := { alloc with
                   nKeys := (live.length : Int),
                   nUpdates := (live.length : Int) }
    .ok (storeCopied d alloc live updates s tmp)

/-- The previous-live-value search shared by the durable single-key `Remove`
and `Update` branches: equality scan on `(bigmap_id, key_id)` in descending
row-id order, accepting a candidate only when the full key hash also matches
(hash-collision safety). -/
def findPrevValue (tbl : List BigmapValue) (id : Int) (kid : Nat)
    (hash : List Nat) : Option BigmapValue :=
  ((tbl.filter (fun r => decide (r.bigmapId = id ∧ r.keyId = kid))).reverse).find?
    (fun r => decide (r.bigmapId = id ∧ r.key = hash))

/-- `DiffActionRemove` branch of `ConnectBlock` (both the full-big-map clear,
when the key hash is invalid, and the single-key removal). -/
def applyRemoveDiff (op : Op) (d : BigmapEvent) (s : EngineState) (tmp : Tmp) :
    Except Fail (EngineState × Tmp) :=
  match d.keyHash with
  | none =>
    -- full big-map removal
    if d.id < 0 then
      -- Go reads `tmp[diff.Id]` without an ok-check and dereferences
      -- `bm.Alloc`; a missing scratch is a nil-pointer crash.
      match alLookup tmp d.id with
      | none => .error .crash
      | some bm =>
        let tmp := alErase tmp d.id
        .ok (insertUpdateRow s (bm.alloc.toRemove Hf op), tmp)
    else
      let (alloc, s) := loadAlloc s d.id
      let lives := s.valueTable.filter (fun r => decide (r.bigmapId = d.id))
      let ids := lives.map (fun v => v.rowId)
      let updates := lives.map (fun v => v.toUpdateRemove op)
      let alloc := { alloc with
                     nKeys := 0,
                     nUpdates := alloc.nUpdates + (updates.length : Int),
                     updated := op.height, deleted := op.height }
      let s := insertUpdateRow s (alloc.toRemove Hf op)
      let s := storeAlloc s d.id alloc
      let s := insertUpdateRows s updates
      let s := deleteValueIds s ids
      .ok (s, tmp)
  | some hash =>
    if d.id < 0 then
      -- single-key removal from a temporary big-map
      match alLookup tmp d.id with
      | none => .error .err
      | some bm =>
        let (s, bm) :=
          match bm.live.find? (fun v => decide (v.key = hash)) with
          | some v =>
            (insertUpdateRow s (v.toUpdateRemove op),
             { bm with
               alloc := { bm.alloc with nKeys := bm.alloc.nKeys - 1 },
               live := eraseFirst bm.live (fun w => decide (w.key = hash)) })
          | none => (s, bm)
        let bm := { bm with
          updates := eraseFirst bm.updates (fun u => decide (u.key = hash)) }
        .ok (s, alInsert tmp d.id bm)
    else
      -- single-key removal from a regular big-map
      let (alloc, s) := loadAlloc s d.id
      let prev := findPrevValue s.valueTable d.id (Hf d.id hash) hash
      let (s, alloc) :=
        match prev with
        | some p => (deleteValueIds s [p.rowId],
                     { alloc with nKeys := alloc.nKeys - 1 })
        | none => (s, alloc)
      let alloc := { alloc with
                     updated := op.height,
                     nUpdates := alloc.nUpdates + 1 }
      let s := insertUpdateRow s (NewBigmapUpdate Hf op d)
      let s := storeAlloc s d.id alloc
      .ok (s, tmp)

/-- `DiffActionUpdate` branch of `ConnectBlock`. -/
def applyUpdateDiff (op : Op) (d : BigmapEvent) (s : EngineState) (tmp : Tmp) :
    Except Fail (EngineState × Tmp) :=
  if d.id < 0 then
    -- update on a temporary big-map
    match alLookup tmp d.id with
    | none => .error .err
    | some bm =>
      let hash := d.keyHash.getD []
      let u := NewBigmapUpdate Hf op d
      let bm :=
        if bm.live.any (fun v => decide (v.key = hash)) then
          { bm with
            alloc := { bm.alloc with nUpdates := bm.alloc.nUpdates + 1 },
            live := replaceFirst bm.live (fun v => decide (v.key = hash))
              (NewBigmapValue Hf d op.height),
            updates := bm.updates ++ [u] }
        else
          { bm with
            alloc := { bm.alloc with
                       nKeys := bm.alloc.nKeys + 1,
                       nUpdates := bm.alloc.nUpdates + 1 },
            live := bm.live ++ [NewBigmapValue Hf d op.height],
            updates := bm.updates ++ [u] }
      let s := insertUpdateRow s u
      .ok (s, alInsert tmp d.id bm)
  else
    -- regular big-maps
    let (alloc, s) := loadAlloc s d.id
    let hash := d.keyHash.getD []
    let prev := findPrevValue s.valueTable d.id (Hf d.id hash) hash
    let live := NewBigmapValue Hf d op.height
    let (s, alloc) :=
      match prev with
      | some p => (updateValueRow s { live with rowId := p.rowId }, alloc)
      | none => ((insertValueRow s live).2,
                 { alloc with nKeys := alloc.nKeys + 1 })
    let alloc := { alloc with
                   updated := op.height,
                   nUpdates := alloc.nUpdates + 1 }
    let s := insertUpdateRow s (NewBigmapUpdate Hf op d)
    let s := storeAlloc s d.id alloc
    .ok (s, tmp)

/-- Dispatch one diff on its action. -/
def processDiff (ver : Nat) (unf : Nat → Nat) (op : Op)
    (st : EngineState × Tmp) (d : BigmapEvent) :
    Except Fail (EngineState × Tmp) :=
  match d.action with
  | .alloc => .ok (applyAllocDiff Hf ver unf op d st.1 st.2)
  | .copy => applyCopyDiff Hf op d st.1 st.2
  | .remove => applyRemoveDiff Hf op d st.1 st.2
  | .update => applyUpdateDiff Hf op d st.1 st.2

/-- Process a block's diffs of one operation in delivered order. -/
def processDiffs (ver : Nat) (unf : Nat → Nat) (op : Op) :
    EngineState × Tmp → List BigmapEvent → Except Fail (EngineState × Tmp)
  | st, [] => .ok st
  | st, d :: ds =>
    match processDiff Hf ver unf op st d with
    | .error e => .error e
    | .ok st' => processDiffs ver unf op st' ds

/-- Process one operation: clear the scratch map at a non-internal boundary,
skip unsuccessful or event-free operations, then apply the events in order. -/
def processOp (ver : Nat) (unf : Nat → Nat) (st : EngineState × Tmp)
    (op : Op) : Except Fail (EngineState × Tmp) :=
  let tmp := if !op.isInternal && !st.2.isEmpty then [] else st.2
  if op.events.isEmpty || !op.isSuccess then .ok (st.1, tmp)
  else processDiffs Hf ver unf op (st.1, tmp) op.events

/-- Process a block's operations in delivered order. -/
def processOps (ver : Nat) (unf : Nat → Nat) :
    EngineState × Tmp → List Op → Except Fail (EngineState × Tmp)
  | st, [] => .ok st
  | st, op :: ops =>
    match processOp Hf ver unf st op with
    | .error e => .error e
    | .ok st' => processOps ver unf st' ops

/-- `BigmapIndex.ConnectBlock`: the scratch map is function-local and is
discarded when the call returns. -/
def ConnectBlock (unf : Nat → Nat) (b : Block) (s : EngineState) :
    Except Fail EngineState :=
  (processOps Hf b.version unf (s, ([] : Tmp)) b.ops).map (fun st => st.1)

/-- The previous-update search of the rollback loop (`etl.rollback` on the
update table): candidates share `(bigmap_id, key_id)`, have `row_id` strictly
below the rolled-back row, and height within `[alloc.Height, height]`; the
stream has no descending flag, so the first key-hash match in ascending
row-id order wins. -/
def findPrevUpdate (tbl : List BigmapUpdate) (v : BigmapUpdate) (kid : Nat)
    (allocH height : Int) : Option BigmapUpdate :=
  (tbl.filter (fun r => decide (r.bigmapId = v.bigmapId ∧ r.keyId = kid ∧
      r.rowId < v.rowId ∧ r.height ≤ height ∧ allocH ≤ r.height))).find?
    (fun r => decide (r.key = v.key))

/-- The current-live-value search of the rollback loop (`etl.rollback` on the
value table, ascending, first key-hash match). -/
def findLiveValue (tbl : List BigmapValue) (id : Int) (kid : Nat)
    (hash : List Nat) : Option BigmapValue :=
  (tbl.filter (fun r => decide (r.bigmapId = id ∧ r.keyId = kid))).find?
    (fun r => decide (r.key = hash))

/-- Record a mutated allocation during rollback: into the in-memory `allocs`
map and, through pointer aliasing, into the allocation cache. -/
def putRollAlloc (s : EngineState) (allocs : List (Int × BigmapAlloc))
    (id : Int) (a : BigmapAlloc) :
    EngineState × List (Int × BigmapAlloc) :=
  (cacheAdd s id a, alInsert allocs id a)

/-- One iteration of the rollback loop of `DeleteBlock` for update row `v`. -/
def rollbackStep (height : Int)
    (acc : EngineState × List (Int × BigmapAlloc)) (v : BigmapUpdate) :
    Except Fail (EngineState × List (Int × BigmapAlloc)) :=
  let (s, allocs) := acc
  let hash := v.key
  let kid := Hf v.bigmapId hash
  let (alloc, s, allocs) :=
    match alLookup allocs v.bigmapId with
    | some a => (a, s, allocs)
    | none =>
      let (a, s) := loadAlloc s v.bigmapId
      let a := { a with updated := 0 }
      (a, cacheAdd s v.bigmapId a, alInsert allocs v.bigmapId a)
  let prev := findPrevUpdate s.updateTable v kid alloc.height height
  match v.action with
  | .remove =>
    match prev with
    | none => .ok (s, allocs)  -- warn: missing previous update; continue
    | some p =>
      let (s, alloc) :=
        if p.action ≠ .update then
          -- double remove: adjust the update count only
          (s, { alloc with nUpdates := alloc.nUpdates - 1 })
        else
          -- remove after update: resurrect the previous live key
          ((insertValueRow s p.toKV).2,
           { alloc with
             nKeys := alloc.nKeys + 1,
             nUpdates := alloc.nUpdates - 1 })
      let alloc := if p.height < height then
          { alloc with updated := max alloc.updated p.height }
        else alloc
      .ok (putRollAlloc s allocs v.bigmapId alloc)
  | .update | .copy =>
    let live := findLiveValue s.valueTable v.bigmapId kid hash
    match prev with
    | none =>
      match live with
      | none => .ok (s, allocs)  -- warn: missing live key; continue
      | some lv =>
        -- first-time insert: delete the current live key
        let s := deleteValueIds s [lv.rowId]
        let alloc := { alloc with
                       nKeys := alloc.nKeys - 1,
                       nUpdates := alloc.nUpdates - 1 }
        .ok (putRollAlloc s allocs v.bigmapId alloc)
    | some p =>
      if p.action = .remove then
        match live with
        | none => .error .crash  -- Go dereferences `live.RowId` unchecked
        | some lv =>
          -- insert after remove: delete the current live key
          let s := deleteValueIds s [lv.rowId]
          let alloc := { alloc with
                         nKeys := alloc.nKeys - 1,
                         nUpdates := alloc.nUpdates - 1 }
          let alloc := if p.height < height then
              { alloc with updated := max alloc.updated p.height }
            else alloc
          .ok (putRollAlloc s allocs v.bigmapId alloc)
      else
        match live with
        | none => .error .err  -- missing live key is fatal here
        | some lv =>
          -- update after update: replace with the previous payload
          let s := updateValueRow s { p.toKV with rowId := lv.rowId }
          let alloc := { alloc with nUpdates := alloc.nUpdates - 1 }
          let alloc := if p.height < height then
              { alloc with updated := max alloc.updated p.height }
            else alloc
          .ok (putRollAlloc s allocs v.bigmapId alloc)
  | .alloc => .ok (s, allocs)

/-- The rollback loop over the block's update rows. -/
def rollbackSteps (height : Int) :
    EngineState × List (Int × BigmapAlloc) → List BigmapUpdate →
    Except Fail (EngineState × List (Int × BigmapAlloc))
  | acc, [] => .ok acc
  | acc, v :: vs =>
    match rollbackStep Hf height acc v with
    | .error e => .error e
    | .ok acc' => rollbackSteps height acc' vs

/-- `BigmapIndex.DeleteBlock(height)`: stream the block's update rows in
descending row-id order, roll each back, delete the block's update rows,
write back rolled-back allocations — the Go loop skips every allocation whose
alloc height differs from `height` — and finally delete the allocations
allocated at `height`. -/
def DeleteBlock (height : Int) (s : EngineState) : Except Fail EngineState :=
  let upds := (s.updateTable.filter (fun r => decide (r.height = height))).reverse
  match rollbackSteps Hf height (s, []) upds with
  | .error e => .error e
  | .ok (s, allocs) =>
    let s := { s with updateTable :=
        s.updateTable.filter (fun r => decide (¬ r.height = height)) }
    -- `if v.Height != height { continue }`: only allocs allocated at the
    -- deleted height are written back (and they are deleted just after).
    let writeBack := (allocs.map (fun p => p.2)).filter
      (fun a => decide (a.height = height))
    let s := writeBack.foldl updateAllocRow s
    let s := { s with allocTable :=
        s.allocTable.filter (fun a => decide (¬ a.height = height)) }
    .ok s

/-- `BigmapIndex.DisconnectBlock`: purge the allocation cache, then
`DeleteBlock` at the block's height. -/
def DisconnectBlock (height : Int) (s : EngineState) :
    Except Fail EngineState :=
  DeleteBlock Hf height { s with allocCache := [] }

end Engine

section HistoryCache

variable (Hf : Int → List Nat → Nat)

/-- `BigmapHistory`: the offset-packed snapshot of a big-map's live key set
at one height.  `data` concatenates every live pair; `keyOffsets[i]` and
`valueOffsets[i]` give the start of the i-th key and value; the end of the
i-th value is `keyOffsets[i+1]`, or the end of `data` for the last entry. -/
structure BigmapHistory where
  bigmapId : Int
  height : Int
  keyOffsets : List Nat
  valueOffsets : List Nat
  data : List Nat
deriving DecidableEq, Repr

/-- One streamed update row of `Build`/`Update`: `Alloc`/`Copy` are ignored,
`Update` is insert-or-replace on the transient `key_id → value` map
(`kvStore[upd.KeyId] = upd.ToKV()`), `Remove` deletes the key id. -/
def replayStep (kv : List (Nat × BigmapValue)) (r : BigmapUpdate) :
    List (Nat × BigmapValue) :=
  match r.action with
  | .alloc | .copy => kv
  | .update => alInsert kv r.keyId r.toKV
  | .remove => alErase kv r.keyId

/-- One iteration of the compile-into-compact-form loop: record the current
data length as the key offset, append the key, record the new length as the
value offset, append the value. -/
def packStep (h : BigmapHistory) (v : BigmapValue) : BigmapHistory :=
  { h with
    keyOffsets := h.keyOffsets ++ [h.data.length],
    valueOffsets := h.valueOffsets ++ [h.data.length + v.key.length],
    data := h.data ++ v.key ++ v.value }

/-- Pack a list of live values into a snapshot (the `for _, v := range
kvStore` loop; Go map order is arbitrary, the model uses list order). -/
def packEntries (id height : Int) (vs : List BigmapValue) : BigmapHistory :=
  vs.foldl packStep
    { bigmapId := id, height := height, keyOffsets := [], valueOffsets := []
    , data := [] }

/-- `data[a:b]`. -/
def slice (xs : List Nat) (a b : Nat) : List Nat := (xs.drop a).take (b - a)

/-- Decode the i-th entry of a snapshot the way `BigmapHistoryCache.Update`
unpacks its seed (also the slicing used by `BigmapHistory.Get`): the value
ends at `keyOffsets[i+1]`, or at the end of `data` for the last entry. -/
def decodeAt (h : BigmapHistory) (i : Nat) : BigmapValue :=
  let kStart := h.keyOffsets.getD i 0
  let kEnd := h.valueOffsets.getD i 0
  let vEnd := if i < h.keyOffsets.length - 1 then h.keyOffsets.getD (i + 1) 0
    else h.data.length
  let key := slice h.data kStart kEnd
  { rowId := i + 1, bigmapId := h.bigmapId, keyId := Hf h.bigmapId key
  , key := key, value := slice h.data kEnd vEnd }

/-- The seed map of `BigmapHistoryCache.Update`: unpack all cached entries
into a fresh `key_id → value` map, recomputing each key id from the key
bytes. -/
def decodeKV (h : BigmapHistory) : List (Nat × BigmapValue) :=
  (List.range h.keyOffsets.length).foldl
    (fun kv i => let v := decodeAt Hf h i; alInsert kv v.keyId v) []

/-- The transient map built by `BigmapHistoryCache.Build(id, height)`:
replay all update rows with `bigmap_id = id`, `height ≤ height` in table
(row-id) order. -/
def buildKV (log : List BigmapUpdate) (id height : Int) :
    List (Nat × BigmapValue) :=
  (log.filter (fun r => decide (r.bigmapId = id ∧ r.height ≤ height))).foldl
    replayStep []

/-- `BigmapHistoryCache.Build(id, height)`. -/
def BigmapHistoryCache.Build (log : List BigmapUpdate) (id height : Int) :
    BigmapHistory :=
  packEntries id height ((buildKV log id height).map (fun p => p.2))

/-- The transient map built by `BigmapHistoryCache.Update`: seed from the
snapshot's decoded key set, then replay rows with
`hist.Height < height ≤ target`. -/
def updateKV (h : BigmapHistory) (log : List BigmapUpdate) (height : Int) :
    List (Nat × BigmapValue) :=
  (log.filter (fun r => decide (r.bigmapId = h.bigmapId ∧
      h.height < r.height ∧ r.height ≤ height))).foldl
    replayStep (decodeKV Hf h)

/-- `BigmapHistoryCache.Update(hist, target_height)`: the original snapshot
is immutable; a new one is packed at the target height. -/
def BigmapHistoryCache.Update (h : BigmapHistory) (log : List BigmapUpdate)
    (height : Int) : BigmapHistory :=
  packEntries h.bigmapId height ((updateKV Hf h log height).map (fun p => p.2))

/-- The composite cache key `id<<32 | height` of `BigmapHistoryCache`;
for `0 ≤ id` and `0 ≤ height < 2^32` the shift-or is plain arithmetic. -/
def BigmapHistoryCache.makeKey (id height : Nat) : Nat :=
  id * 4294967296 + height

/-- The scan of `GetBest` over the cache keys, with the running best height
as an explicit accumulator: skip keys of other ids (`v>>32` is `v / 2^32`)
and heights above the request (`v & 0xffffffff` is `v % 2^32`), keep the
greatest remaining height. -/
def bestHeightAux (id height : Nat) : Nat → List Nat → Nat
  | best, [] => best
  | best, v :: ks =>
    bestHeightAux id height
      (if v / 4294967296 ≠ id then best
       else if height < v % 4294967296 then best
       else if best < v % 4294967296 then v % 4294967296
       else best) ks

/-- The `GetBest` scan starting from `var bestHeight int64` (zero). -/
def bestHeight (keys : List Nat) (id height : Nat) : Nat :=
  bestHeightAux id height 0 keys

/-- `BigmapHistoryCache.GetBest(id, height)`: a best height of 0 is reported
as a miss; otherwise the exact entry at the packed key is returned. -/
def BigmapHistoryCache.GetBest (cache : List (Nat × BigmapHistory))
    (id height : Nat) : Option BigmapHistory :=
  let best := bestHeight (cache.map (fun p => p.1)) id height
  if best = 0 then none
  else alLookup cache (BigmapHistoryCache.makeKey id best)

/-- The item `BigmapHistory.Range` constructs for snapshot index `j`
(`i+from` in Go): the value end is `keyOffsets[j+1]` whenever
`j < len(keyOffsets)`, else the end of `data`.  The Go code would panic on
`keyOffsets[j+1]` with `j = len-1`; that index is unreachable for the
clamped ranges the function builds, and the model returns the default 0
there. -/
def rangeItemAt (h : BigmapHistory) (j : Nat) : BigmapValue :=
  let kStart := h.keyOffsets.getD j 0
  let vStart := h.valueOffsets.getD j 0
  let vEnd := if j < h.keyOffsets.length then h.keyOffsets.getD (j + 1) 0
    else h.data.length
  let key := slice h.data kStart vStart
  { rowId := j + 1, bigmapId := h.bigmapId, keyId := Hf h.bigmapId key
  , key := key, value := slice h.data vStart vEnd }

/-- `BigmapHistory.Range(from, to)`: clamp `to` into range, return nil when
`to ≤ from`, else build the items for indices `from ≤ j < to`. -/
def BigmapHistory.Range (h : BigmapHistory) (frm hi : Int) :
    List BigmapValue :=
  let n := h.keyOffsets.length
  let to2 := if hi < 0 ∨ (n : Int) ≤ hi then (n : Int) - 1 else hi
  if to2 ≤ frm then []
  else (List.range (to2 - frm).toNat).map
    (fun i => rangeItemAt Hf h (frm.toNat + i))

end HistoryCache

/-!
Concrete scenario material used by the evaluation theorems below.
-/

/-- A concrete key-id hash for scenario evaluation. -/
def Hc : Int → List Nat → Nat := fun i k => i.natAbs * 100 + k.sum

/-- Scenario: `Alloc` of durable big-map 1 at height 10. -/
def dAllocS : BigmapEvent :=
  { action := .alloc, id := 1, sourceId := 0, destId := 0, keyHash := none
  , value := [], keyType := 3, valueType := 4 }

/-- Scenario: `Update` of key-hash `[5]` to value `[7]` in big-map 1. -/
def dUpdS : BigmapEvent :=
  { action := .update, id := 1, sourceId := 0, destId := 0, keyHash := some [5]
  , value := [7], keyType := 0, valueType := 0 }

/-- Scenario block at height 10 allocating big-map 1. -/
def blockA : Block :=
  { height := 10, version := 0, ops := [
      { height := 10, isInternal := false, isSuccess := true, scriptTypes := []
      , events := [dAllocS] } ] }

/-- Scenario block at height 11 updating one key of big-map 1. -/
def blockB : Block :=
  { height := 11, version := 0, ops := [
      { height := 11, isInternal := false, isSuccess := true, scriptTypes := []
      , events := [dUpdS] } ] }

/-- Connect height 10 and 11 from an empty state, then disconnect 11. -/
def rollScenario : Except Fail EngineState :=
  match ConnectBlock Hc id blockA emptyState with
  | .error e => .error e
  | .ok s1 =>
    match ConnectBlock Hc id blockB s1 with
    | .error e => .error e
    | .ok s2 => DisconnectBlock Hc 11 s2

/-- Scenario block with an internal operation materialising temporary big-map
`-1` (alloc + one key update) followed by a non-internal operation. -/
def blockT : Block :=
  { height := 5, version := 0, ops := [
      { height := 5, isInternal := true, isSuccess := true, scriptTypes := []
      , events := [
          { action := .alloc, id := -1, sourceId := 0, destId := 0
          , keyHash := none, value := [], keyType := 3, valueType := 4 },
          { action := .update, id := -1, sourceId := 0, destId := 0
          , keyHash := some [9], value := [8], keyType := 0, valueType := 0 } ] },
      { height := 5, isInternal := false, isSuccess := true, scriptTypes := []
      , events := [] } ] }

/-- Scenario block whose only event is a full-big-map `Remove` (invalid key
hash) targeting temporary big-map `-1` with no scratch allocated. -/
def blockP : Block :=
  { height := 5, version := 0, ops := [
      { height := 5, isInternal := false, isSuccess := true, scriptTypes := []
      , events := [
          { action := .remove, id := -1, sourceId := 0, destId := 0
          , keyHash := none, value := [], keyType := 0, valueType := 0 } ] } ] }

/-- Rollback scenario update log: alloc at 10, two updates of the same key at
heights 11 (`value [10]`) and 12 (`value [11]`), remove at height 13. -/
def r1S : BigmapUpdate :=
  { rowId := 1, bigmapId := 1, height := 10, action := .alloc, keyId := Hc 1 []
  , key := [], value := [], sourceId := 0 }

def r2S : BigmapUpdate :=
  { rowId := 2, bigmapId := 1, height := 11, action := .update, keyId := Hc 1 [5]
  , key := [5], value := [10], sourceId := 0 }

def r3S : BigmapUpdate :=
  { rowId := 3, bigmapId := 1, height := 12, action := .update, keyId := Hc 1 [5]
  , key := [5], value := [11], sourceId := 0 }

def r4S : BigmapUpdate :=
  { rowId := 4, bigmapId := 1, height := 13, action := .remove, keyId := Hc 1 [5]
  , key := [5], value := [], sourceId := 0 }

/-- The allocation row of the rollback scenario after the height-13 remove. -/
def allocS : BigmapAlloc :=
  { rowId := 1, bigmapId := 1, height := 10, updated := 13, deleted := 0
  , nKeys := 0, nUpdates := 3, keyType := 3, valueType := 4 }

/-- The durable state of the rollback scenario just before `DeleteBlock 13`. -/
def stS : EngineState :=
  { allocTable := [allocS], updateTable := [r1S, r2S, r3S, r4S]
  , valueTable := [], allocCache := [], nextAllocRow := 2, nextUpdateRow := 5
  , nextValueRow := 1 }

/-- The spec's wording of the rollback prior-update choice: the most recent
(greatest row id) update row for the same `(big_map_id, key_id)` with
`row_id < u.row_id` and `alloc_height ≤ height < H`, confirmed by key-hash
equality. -/
def specMostRecentPrev (tbl : List BigmapUpdate) (v : BigmapUpdate)
    (kid : Nat) (allocH height : Int) : Option BigmapUpdate :=
  ((tbl.filter (fun r => decide (r.bigmapId = v.bigmapId ∧ r.keyId = kid ∧
      r.rowId < v.rowId ∧ allocH ≤ r.height ∧ r.height < height))).reverse).find?
    (fun r => decide (r.key = v.key))

/-- Whether a script big-map type pair matches the diff's declared types
after unfolding (the comparison of the reconciliation loop). -/
def tyMatch (unf : Nat → Nat) (d : BigmapEvent) (p : Nat × Nat) : Prop :=
  unf p.1 = unf d.keyType ∧ unf p.2 = unf d.valueType

/-- The claim's wording of when the Alloc type reconciliation applies:
protocol version ≥ 13 and target id non-negative (the code requires the id
to be strictly positive instead). -/
def specReconcileNonneg (unf : Nat → Nat) (ver : Nat)
    (scriptTypes : List (Nat × Nat)) (d : BigmapEvent) : BigmapEvent :=
  if 13 ≤ ver ∧ 0 ≤ d.id then
    match scriptTypes.find? (fun p =>
        decide (unf p.1 = unf d.keyType ∧ unf p.2 = unf d.valueType)) with
    | some p => { d with keyType := p.1, valueType := p.2 }
    | none => d
  else
    d

/-- An `Alloc` diff targeting big-map id 0 with declared types `(1, 2)`. -/
def dZeroS : BigmapEvent :=
  { action := .alloc, id := 0, sourceId := 0, destId := 0, keyHash := none
  , value := [], keyType := 1, valueType := 2 }

/-- An `Alloc` diff targeting big-map id 1 with declared types `(1, 2)`. -/
def dPosS : BigmapEvent :=
  { action := .alloc, id := 1, sourceId := 0, destId := 0, keyHash := none
  , value := [], keyType := 1, valueType := 2 }

/-- An empty snapshot for big-map 1 at height 0. -/
def snapZ : BigmapHistory :=
  { bigmapId := 1, height := 0, keyOffsets := [], valueOffsets := []
  , data := [] }

/-- A history cache holding exactly the height-0 snapshot of big-map 1. -/
def cacheZ : List (Nat × BigmapHistory) :=
  [(BigmapHistoryCache.makeKey 1 0, snapZ)]

/-- An `Update` diff for a durable big-map: key hash `h`, value `w`. -/
@[reducible] def mkUpdEvent (id0 : Int) (h w : List Nat) : BigmapEvent :=
  { action := .update, id := id0, sourceId := 0, destId := 0
  , keyHash := some h, value := w, keyType := 0, valueType := 0 }

/-- A single-key `Remove` diff for a durable big-map: key hash `h`. -/
@[reducible] def mkRemEvent (id0 : Int) (h : List Nat) : BigmapEvent :=
  { action := .remove, id := id0, sourceId := 0, destId := 0
  , keyHash := some h, value := [], keyType := 0, valueType := 0 }

/-- No temporary (negative-id) big-map state in the durable side of the
engine: every allocation row, every live-value row and every allocation
cache entry carries a non-negative big-map id. -/
def StateNonneg (s : EngineState) : Prop :=
  (∀ a ∈ s.allocTable, 0 ≤ a.bigmapId) ∧
  (∀ v ∈ s.valueTable, 0 ≤ v.bigmapId) ∧
  (∀ p ∈ s.allocCache, 0 ≤ p.1 ∧ 0 ≤ p.2.bigmapId)

/-- The engine state `ConnectBlock` produces on `blockT` (used to exercise
the temporary-isolation theorem at a concrete input). -/
def tempFinalS : EngineState :=
  match ConnectBlock Hc id blockT emptyState with
  | .ok s => s
  | .error _ => emptyState

/-- A constant key-id hash: every key collides. -/
def HcConst : Int → List Nat → Nat := fun _ _ => 0

/-- A plain successful non-internal operation at height 3 with no events. -/
def opW : Op :=
  { height := 3, isInternal := false, isSuccess := true, scriptTypes := []
  , events := [] }

/-- A two-entry snapshot: keys `[1]` and `[9]`, values `[2,2]` and `[8]`. -/
def snapW : BigmapHistory :=
  { bigmapId := 1, height := 7, keyOffsets := [0, 3], valueOffsets := [1, 4]
  , data := [1, 2, 2, 9, 8] }


/-- Two transient `key_id → value` maps agree on the live key/value set. -/
def kvProjEq (kv1 kv2 : List (Nat × BigmapValue)) : Prop :=
  ∀ kid : Nat,
    (alLookup kv1 kid).map (fun v => (v.key, v.value)) =
    (alLookup kv2 kid).map (fun v => (v.key, v.value))

/-- Well-formedness of a transient map for big-map `id`: keys are distinct
and each key is the hash of its entry's key bytes. -/
def KVWF (Hf : Int → List Nat → Nat) (id : Int)
    (kv : List (Nat × BigmapValue)) : Prop :=
  (kv.map Prod.fst).Nodup ∧ ∀ p ∈ kv, p.1 = Hf id p.2.key

/-- The zero live value (list `getD` default). -/
def bv0 : BigmapValue :=
  { rowId := 0, bigmapId := 0, keyId := 0, key := [], value := [] }

/-- Scenario log for the incremental-update witness: two updates of the
same key of big-map 1 at heights 10 and 11. -/
def updLogW : List BigmapUpdate :=
  [ { rowId := 1, bigmapId := 1, height := 10, action := .update,
      keyId := Hc 1 [5], key := [5], value := [7], sourceId := 0 },
    { rowId := 2, bigmapId := 1, height := 11, action := .update,
      keyId := Hc 1 [5], key := [5], value := [9], sourceId := 0 } ]

/-!
Claim theorems.
-/

/-- C1.  After `disconnect_block(11)` of a block that updated big-map 1
(allocated at height 10 < 11), the allocations table still carries the
pre-rollback counters `n_live_keys = 1`, `n_updates_total = 1`,
`last_updated_height = 11`, while the recomputed counters
(`n_live_keys = 0`, `n_updates_total = 0`) exist only in the in-memory
cache: the write-back loop of `DeleteBlock` skips every allocation whose
alloc height is strictly less than the disconnected height, contradicting
the claim that those allocations are written back. -/
theorem bigmap_rollback_writeback_skips_surviving_allocs :
    (rollScenario.toOption.map (fun s =>
      s.allocTable.map (fun a => (a.height, a.nKeys, a.nUpdates, a.updated))))
      = some [(10, 1, 1, 11)] ∧
    (rollScenario.toOption.map (fun s => s.valueTable.length)) = some 0 ∧
    (rollScenario.toOption.map (fun s =>
      (alLookup s.allocCache 1).map (fun a => (a.nKeys, a.nUpdates))))
      = some (some (0, 0)) := by
  decide

/-- C2 counterexample.  A block whose internal operation materialises
temporary big-map `-1` and updates one key, followed by a non-internal
operation, leaves an update-log row with `bigmap_id = -1` in the updates
table after `ConnectBlock` returns: temporary big-map state is observable in
an output table, so the claim as stated is false. -/
theorem bigmap_temp_update_rows_persisted_counterexample :
    ((ConnectBlock Hc id blockT emptyState).toOption.map (fun s =>
      (s.updateTable.filter (fun u => decide (u.bigmapId < 0))).map
        (fun u => (u.bigmapId, u.key, u.value))))
      = some [(-1, [9], [8])] := by
  decide

/-- C4.  After `connect(10); connect(11); disconnect(11)` from an empty
state, big-map 1's allocation row in the allocations table reports
`n_live_keys = 1` while the live-values table holds no row for big-map 1:
the invariant fails because `DeleteBlock` never writes the recomputed
counters back for allocations that survive the rollback. -/
theorem bigmap_nlivekeys_invariant_violated_after_disconnect :
    (rollScenario.toOption.map (fun s =>
      ((s.allocTable.find? (fun a => decide (a.bigmapId = 1))).map
          (fun a => a.nKeys),
       (s.valueTable.filter (fun v => decide (v.bigmapId = 1))).length)))
      = some (some 1, 0) := by
  decide

/-- C5.  Rolling back the height-13 remove of a key updated at heights 11
and 12, the `etl.rollback` query (no descending flag) picks the height-11
row — the earliest prior update — where the claim requires the most recent
one (the height-12 row); consequently `DeleteBlock 13` resurrects the
height-11 payload `[10]` instead of the height-12 payload `[11]`. -/
theorem bigmap_rollback_prev_selection_takes_earliest_not_most_recent :
    findPrevUpdate stS.updateTable r4S (Hc 1 [5]) 10 13 = some r2S ∧
    specMostRecentPrev stS.updateTable r4S (Hc 1 [5]) 10 13 = some r3S ∧
    r2S ≠ r3S ∧
    ((DeleteBlock Hc 13 stS).toOption.map (fun s =>
      s.valueTable.map (fun v => v.value))) = some [[10]] := by
  decide

/-- C6.  A full-big-map `Remove` diff (invalid key hash) targeting temporary
big-map `-1` whose scratch is missing makes `ConnectBlock` dereference the
nil scratch pointer — a crash, not the returned error the claim (and §7 of
the spec) requires. -/
theorem bigmap_full_remove_missing_temp_scratch_crashes :
    ConnectBlock Hc id blockP emptyState = .error .crash ∧
    Fail.crash ≠ Fail.err := by
  exact ⟨rfl, by decide⟩

/-- `find?` returns the head of the first matching suffix. -/
theorem find?_first {α : Type} (pb : α → Bool) (l r : List α) (p : α)
    (hl : ∀ q ∈ l, pb q = false) (hp : pb p = true) :
    (l ++ p :: r).find? pb = some p := by
  induction l with
  | nil => simp [List.find?, hp]
  | cons x xs ih =>
    have hx := hl x (by simp)
    simp only [List.cons_append, List.find?, hx]
    exact ih (fun q hq => hl q (by simp [hq]))

/-- C7 counterexample.  With protocol version 13, target id 0 (non-negative)
and a script type pair `(7, 8)` whose unfolding (`· % 6`) matches the
declared types `(1, 2)`, the code skips reconciliation entirely (it requires
`diff.Id > 0`), while the claim's non-negative condition would reconcile the
types to the annotated pair: the claim as stated is false at id 0. -/
theorem bigmap_alloc_type_reconcile_zero_id_counterexample :
    reconcileAllocTypes (fun t => t % 6) 13 [(7, 8)] dZeroS = dZeroS ∧
    specReconcileNonneg (fun t => t % 6) 13 [(7, 8)] dZeroS ≠ dZeroS ∧
    (specReconcileNonneg (fun t => t % 6) 13 [(7, 8)] dZeroS).keyType = 7 := by
  decide

/-- C7 (amended).  The declared key/value types of an `Alloc` diff are
reconciled against the script's annotated big-map types exactly when the
protocol version is ≥ 13 and the target id is strictly positive: outside
that condition the diff is untouched; under it, if no script pair matches
the unfolded declared types the declared types are retained (the failure is
only logged), and otherwise the first matching pair's annotated types
overwrite the declared ones. -/
theorem bigmap_alloc_type_reconcile_exactly_when_positive_id
    (unf : Nat → Nat) (ver : Nat) (ts : List (Nat × Nat)) (d : BigmapEvent) :
    (¬ (13 ≤ ver ∧ 0 < d.id) → reconcileAllocTypes unf ver ts d = d) ∧
    ((13 ≤ ver ∧ 0 < d.id) → (∀ p ∈ ts, ¬ tyMatch unf d p) →
      reconcileAllocTypes unf ver ts d = d) ∧
    ((13 ≤ ver ∧ 0 < d.id) → ∀ l p r, ts = l ++ p :: r →
      (∀ q ∈ l, ¬ tyMatch unf d q) → tyMatch unf d p →
      reconcileAllocTypes unf ver ts d =
        { d with keyType := p.1, valueType := p.2 }) := by
  refine ⟨?_, ?_, ?_⟩
  · intro hc
    simp [reconcileAllocTypes, hc]
  · intro hc hnone
    have hfind : ts.find? (fun p =>
        decide (unf p.1 = unf d.keyType) && decide (unf p.2 = unf d.valueType))
        = none := by
      apply List.find?_eq_none.mpr
      intro q hq
      simpa [tyMatch] using hnone q hq
    simp [reconcileAllocTypes, hc, hfind]
  · intro hc l p r hts hl hp
    have hfind : ts.find? (fun p =>
        decide (unf p.1 = unf d.keyType) && decide (unf p.2 = unf d.valueType))
        = some p := by
      subst hts
      apply find?_first
      · intro q hq
        simpa [tyMatch] using hl q hq
      · simpa [tyMatch] using hp
    simp [reconcileAllocTypes, hc, hfind]

/-- C7 witness: version 13 with id 1 and a matching script pair `(7, 8)`
reconciles the declared types `(1, 2)` to the annotated pair. -/
theorem bigmap_alloc_type_reconcile_exactly_when_positive_id_witness :
    (13 ≤ 13 ∧ (0 : Int) < dPosS.id) ∧
    reconcileAllocTypes (fun t => t % 6) 13 [(7, 8)] dPosS =
      { dPosS with keyType := 7, valueType := 8 } := by
  refine ⟨by decide, ?_⟩
  exact (bigmap_alloc_type_reconcile_exactly_when_positive_id
      (fun t => t % 6) 13 [(7, 8)] dPosS).2.2 (by decide) [] (7, 8) [] rfl
    (by intro q hq; simp at hq) (by constructor <;> decide)

/-- A key present among the association-list keys is found by `alLookup`. -/
theorem alLookup_isSome_of_mem_keys {α : Type} (l : List (Nat × α)) (k : Nat)
    (h : k ∈ l.map (fun p => p.1)) : ∃ v, alLookup l k = some v := by
  induction l with
  | nil => simp at h
  | cons p rest ih =>
    by_cases hk : p.1 = k
    · exact ⟨p.2, by simp [alLookup, hk]⟩
    · have : k ∈ rest.map (fun p => p.1) := by
        simp at h
        rcases h with h | h
        · exact absurd h.symm hk
        · simpa using h
      obtain ⟨v, hv⟩ := ih this
      exact ⟨v, by simp [alLookup, hk, hv]⟩

/-- Behaviour of the `GetBest` scan: the result dominates the accumulator,
is either the accumulator or the masked height of a matching key not above
the request, and dominates the masked height of every matching key not above
the request. -/
theorem bestHeightAux_spec (id height : Nat) (ks : List Nat) : ∀ best : Nat,
    best ≤ bestHeightAux id height best ks ∧
    (bestHeightAux id height best ks = best ∨
      ∃ k ∈ ks, k / 4294967296 = id ∧ k % 4294967296 ≤ height ∧
        bestHeightAux id height best ks = k % 4294967296) ∧
    (∀ k ∈ ks, k / 4294967296 = id → k % 4294967296 ≤ height →
      k % 4294967296 ≤ bestHeightAux id height best ks) := by
  induction ks with
  | nil => intro best; simp [bestHeightAux]
  | cons v ks ih =>
    intro best
    simp only [bestHeightAux]
    set b2 := (if v / 4294967296 ≠ id then best
      else if height < v % 4294967296 then best
      else if best < v % 4294967296 then v % 4294967296
      else best) with hb2
    obtain ⟨ihle, ihcase, ihmax⟩ := ih b2
    have hle2 : best ≤ b2 := by
      rw [hb2]
      split
      · exact le_refl best
      · split
        · exact le_refl best
        · split
          · exact le_of_lt (by assumption)
          · exact le_refl best
    have hcase2 : b2 = best ∨
        (v / 4294967296 = id ∧ v % 4294967296 ≤ height ∧
          b2 = v % 4294967296) := by
      rw [hb2]
      split
      · exact Or.inl rfl
      · split
        · exact Or.inl rfl
        · split
          · exact Or.inr ⟨by omega, by omega, rfl⟩
          · exact Or.inl rfl
    have hvmax : v / 4294967296 = id → v % 4294967296 ≤ height →
        v % 4294967296 ≤ b2 := by
      intro h1 h2
      rw [hb2]
      split
      · omega
      · split
        · omega
        · split
          · omega
          · omega
    refine ⟨le_trans hle2 ihle, ?_, ?_⟩
    · rcases ihcase with h | ⟨k, hk, h1, h2, h3⟩
      · rcases hcase2 with h2 | ⟨ha, hb, hc⟩
        · exact Or.inl (by rw [h, h2])
        · exact Or.inr ⟨v, by simp, ha, hb, by rw [h, hc]⟩
      · exact Or.inr ⟨k, by simp [hk], h1, h2, h3⟩
    · intro k hk h1 h2
      rcases List.mem_cons.mp hk with rfl | hk
      · exact le_trans (hvmax h1 h2) ihle
      · exact ihmax k hk h1 h2

/-- C9 counterexample.  A cache holding exactly one snapshot for big-map 1,
cached at height 0, makes `GetBest(1, 5)` report a miss even though a
snapshot for that id is cached at height 0 ≤ 5: the claim's
"miss exactly when no snapshot at a height ≤ requested is cached" is false,
because the scan treats a best height of 0 as absence. -/
theorem bigmap_getbest_zero_height_counterexample :
    BigmapHistoryCache.GetBest cacheZ 1 5 = none ∧
    (cacheZ.map (fun p => p.1)).contains (BigmapHistoryCache.makeKey 1 0)
      = true ∧
    BigmapHistoryCache.makeKey 1 0 % 4294967296 ≤ 5 := by
  decide

/-- C9 (amended).  `GetBest(id, height)` misses exactly when every cached
key for `id` whose packed height does not exceed the request has packed
height 0; on a hit it returns the entry cached under the packed key of the
greatest strictly positive cached height ≤ the requested height. -/
theorem bigmap_getbest_greatest_cached_height
    (cache : List (Nat × BigmapHistory)) (id height : Nat) :
    (BigmapHistoryCache.GetBest cache id height = none ↔
      ∀ k ∈ cache.map (fun p => p.1), k / 4294967296 = id →
        k % 4294967296 ≤ height → k % 4294967296 = 0) ∧
    (∀ s, BigmapHistoryCache.GetBest cache id height = some s →
      ∃ hb, 0 < hb ∧ hb ≤ height ∧
        alLookup cache (BigmapHistoryCache.makeKey id hb) = some s ∧
        ∀ k ∈ cache.map (fun p => p.1), k / 4294967296 = id →
          k % 4294967296 ≤ height → k % 4294967296 ≤ hb) := by
  obtain ⟨hle, hcase, hmax⟩ :=
    bestHeightAux_spec id height (cache.map (fun p => p.1)) 0
  set best := bestHeightAux id height 0 (cache.map (fun p => p.1)) with hbest
  have hgb : BigmapHistoryCache.GetBest cache id height =
      if best = 0 then none
      else alLookup cache (BigmapHistoryCache.makeKey id best) := rfl
  constructor
  · constructor
    · intro hnone k hk h1 h2
      by_cases hz : best = 0
      · have := hmax k hk h1 h2
        omega
      · rcases hcase with hc | ⟨k2, hk2, ha, hb, hc⟩
        · omega
        · have hkey : BigmapHistoryCache.makeKey id best = k2 := by
            simp only [BigmapHistoryCache.makeKey]
            rw [hc, ← ha]
            omega
          obtain ⟨v, hv⟩ := alLookup_isSome_of_mem_keys cache k2 hk2
          rw [hgb, if_neg hz, hkey, hv] at hnone
          exact absurd hnone (by simp)
    · intro hall
      have hz : best = 0 := by
        rcases hcase with hc | ⟨k, hk, ha, hb, hc⟩
        · exact hc
        · rw [hc]
          exact hall k hk ha hb
      rw [hgb, if_pos hz]
  · intro s hs
    have hz : ¬ best = 0 := by
      intro h
      rw [hgb, if_pos h] at hs
      exact absurd hs (by simp)
    rw [hgb, if_neg hz] at hs
    rcases hcase with hc | ⟨k, hk, ha, hb, hc⟩
    · omega
    · refine ⟨best, by omega, by omega, hs, ?_⟩
      intro k2 hk2 h1 h2
      exact hmax k2 hk2 h1 h2

/-- For an index followed by at least one further entry, the `Range` item and
the snapshot decode agree (both end the value at `keyOffsets[j+1]`). -/
theorem rangeItemAt_eq_decodeAt (Hf : Int → List Nat → Nat)
    (h : BigmapHistory) (j : Nat) (hj : j + 1 < h.keyOffsets.length) :
    rangeItemAt Hf h j = decodeAt Hf h j := by
  have h1 : j < h.keyOffsets.length := by omega
  have h2 : j < h.keyOffsets.length - 1 := by omega
  simp [rangeItemAt, decodeAt, h1, h2]

/-- C10.  For a snapshot with `n ≥ 1` entries and an out-of-range `to`
(negative or `≥ n`), `Range(from, to)` clamps `to` to `n - 1` and returns
exactly the decoded entries at indices `from .. n - 2`: the last entry is
never included, and a single-entry snapshot yields the empty list. -/
theorem bigmap_history_range_clamp_drops_last_entry
    (Hf : Int → List Nat → Nat) (h : BigmapHistory) (frm hi : Int)
    (hn : 1 ≤ h.keyOffsets.length)
    (hto : hi < 0 ∨ (h.keyOffsets.length : Int) ≤ hi)
    (hfrm : 0 ≤ frm) :
    BigmapHistory.Range Hf h frm hi =
      (((List.range h.keyOffsets.length).map (decodeAt Hf h)).drop
        frm.toNat).take (h.keyOffsets.length - 1 - frm.toNat) ∧
    (h.keyOffsets.length = 1 → BigmapHistory.Range Hf h frm hi = []) := by
  have hmain : BigmapHistory.Range Hf h frm hi =
      (((List.range h.keyOffsets.length).map (decodeAt Hf h)).drop
        frm.toNat).take (h.keyOffsets.length - 1 - frm.toNat) := by
    unfold BigmapHistory.Range
    simp only []
    rw [if_pos hto]
    by_cases hcut : (h.keyOffsets.length : Int) - 1 ≤ frm
    · rw [if_pos hcut]
      have hz : h.keyOffsets.length - 1 - frm.toNat = 0 := by omega
      rw [hz]
      simp
    · rw [if_neg hcut]
      apply List.ext_getElem
      · simp
        omega
      · intro i hi1 hi2
        have hib : i < h.keyOffsets.length - 1 - frm.toNat := by
          simp at hi1
          omega
        have hjn : frm.toNat + i + 1 < h.keyOffsets.length := by omega
        have hdrop : frm.toNat + i < h.keyOffsets.length := by omega
        simp only [List.getElem_map, List.getElem_range, List.getElem_take,
          List.getElem_drop]
        rw [rangeItemAt_eq_decodeAt Hf h (frm.toNat + i) hjn]
  refine ⟨hmain, ?_⟩
  intro h1
  rw [hmain, h1]
  simp

/-- `loadAlloc` never touches the value table or its row counter. -/
theorem loadAlloc_state (s : EngineState) (i : Int) :
    ((loadAlloc s i).2).valueTable = s.valueTable ∧
    ((loadAlloc s i).2).nextValueRow = s.nextValueRow := by
  unfold loadAlloc
  cases alLookup s.allocCache i <;> simp [cacheAdd]

/-- `insertUpdateRow` never touches the value table or its row counter. -/
theorem insertUpdateRow_state (s : EngineState) (u : BigmapUpdate) :
    (insertUpdateRow s u).valueTable = s.valueTable ∧
    (insertUpdateRow s u).nextValueRow = s.nextValueRow := by
  simp [insertUpdateRow]

/-- `storeAlloc` never touches the value table or its row counter. -/
theorem storeAlloc_state (s : EngineState) (i : Int) (a : BigmapAlloc) :
    (storeAlloc s i a).valueTable = s.valueTable ∧
    (storeAlloc s i a).nextValueRow = s.nextValueRow := by
  simp [storeAlloc, cacheAdd, updateAllocRow]

/-- When no row of the table carries the diff's big-map id together with its
exact key hash, the previous-value search misses (key-id collisions alone
are not accepted). -/
theorem findPrevValue_eq_none (tbl : List BigmapValue) (id0 : Int)
    (kid : Nat) (hsh : List Nat)
    (h : ∀ r ∈ tbl, r.bigmapId = id0 → r.key ≠ hsh) :
    findPrevValue tbl id0 kid hsh = none := by
  unfold findPrevValue
  apply List.find?_eq_none.mpr
  intro r hr
  have hr1 : r ∈ tbl ∧ (r.bigmapId = id0 ∧ r.keyId = kid) := by
    have hm := List.mem_filter.mp (List.mem_reverse.mp hr)
    exact ⟨hm.1, by simpa using hm.2⟩
  simp only [decide_eq_true_eq]
  intro hcontra
  exact h r hr1.1 hr1.2.1 hcontra.2

/-- The durable `Update` branch with no previous live value appends a fresh
row carrying the next store row id (and leaves the scratch map alone). -/
theorem applyUpdateDiff_no_prev (Hf : Int → List Nat → Nat) (op : Op)
    (d : BigmapEvent) (s : EngineState) (tmp : Tmp)
    (hid : ¬ d.id < 0)
    (hprev : findPrevValue s.valueTable d.id (Hf d.id (d.keyHash.getD []))
      (d.keyHash.getD []) = none) :
    ∃ s2, applyUpdateDiff Hf op d s tmp = .ok (s2, tmp) ∧
      s2.valueTable = s.valueTable ++
        [{ NewBigmapValue Hf d op.height with rowId := s.nextValueRow }] ∧
      s2.nextValueRow = s.nextValueRow + 1 := by
  rcases hload : loadAlloc s d.id with ⟨a, s1⟩
  have hv1 : s1.valueTable = s.valueTable := by
    have h0 := (loadAlloc_state s d.id).1
    rw [hload] at h0
    exact h0
  have hn1 : s1.nextValueRow = s.nextValueRow := by
    have h0 := (loadAlloc_state s d.id).2
    rw [hload] at h0
    exact h0
  have happ : applyUpdateDiff Hf op d s tmp = .ok
      (storeAlloc (insertUpdateRow
          ((insertValueRow s1 (NewBigmapValue Hf d op.height)).2)
          (NewBigmapUpdate Hf op d)) d.id
        { a with
          nKeys := a.nKeys + 1, updated := op.height,
          nUpdates := a.nUpdates + 1 }, tmp) := by
    unfold applyUpdateDiff
    rw [if_neg hid, hload]
    dsimp only
    rw [hv1, hprev]
  refine ⟨_, happ, ?_, ?_⟩
  · simp [storeAlloc, cacheAdd, updateAllocRow, insertUpdateRow,
      insertValueRow, hv1, hn1]
  · simp [storeAlloc, cacheAdd, updateAllocRow, insertUpdateRow,
      insertValueRow, hn1]

/-- The durable single-key `Remove` branch with a previous live value found
deletes exactly that row id (and leaves the scratch map alone). -/
theorem applyRemoveDiff_prev (Hf : Int → List Nat → Nat) (op : Op)
    (d : BigmapEvent) (s : EngineState) (tmp : Tmp) (hsh : List Nat)
    (p : BigmapValue)
    (hid : ¬ d.id < 0) (hkh : d.keyHash = some hsh)
    (hprev : findPrevValue s.valueTable d.id (Hf d.id hsh) hsh = some p) :
    ∃ s2, applyRemoveDiff Hf op d s tmp = .ok (s2, tmp) ∧
      s2.valueTable =
        s.valueTable.filter (fun v => decide (¬ v.rowId ∈ [p.rowId])) := by
  rcases hload : loadAlloc s d.id with ⟨a, s1⟩
  have hv1 : s1.valueTable = s.valueTable := by
    have h0 := (loadAlloc_state s d.id).1
    rw [hload] at h0
    exact h0
  have happ : applyRemoveDiff Hf op d s tmp = .ok
      (storeAlloc (insertUpdateRow (deleteValueIds s1 [p.rowId])
          (NewBigmapUpdate Hf op d)) d.id
        { a with
          nKeys := a.nKeys - 1, updated := op.height,
          nUpdates := a.nUpdates + 1 }, tmp) := by
    unfold applyRemoveDiff
    rw [hkh]
    dsimp only
    rw [if_neg hid, hload]
    dsimp only
    rw [hv1, hprev]
  refine ⟨_, happ, ?_⟩
  · simp [storeAlloc, cacheAdd, updateAllocRow, insertUpdateRow,
      deleteValueIds, hv1]

/-- C8.  Two distinct key hashes that collide on the 64-bit `key_id` within
one durable big-map never overwrite or delete each other: applying an
`Update` for each hash to a table with no prior rows for either hash yields
two independent live rows (the second insert sees the first row as a key-id
candidate but rejects it on the full-hash comparison), and a subsequent
single-key `Remove` of the first hash deletes only the first row. -/
theorem bigmap_keyid_collision_yields_independent_rows
    (Hf : Int → List Nat → Nat) (op : Op) (s : EngineState) (tmp : Tmp)
    (id0 : Int) (h1 h2 w1 w2 : List Nat)
    (hid : 0 ≤ id0) (hne : h1 ≠ h2) (hcol : Hf id0 h1 = Hf id0 h2)
    (hclean : ∀ r ∈ s.valueTable, r.bigmapId = id0 → r.key ≠ h1 ∧ r.key ≠ h2)
    (hrow : ∀ r ∈ s.valueTable, r.rowId < s.nextValueRow) :
    ∃ s1 s2 s3,
      applyUpdateDiff Hf op (mkUpdEvent id0 h1 w1) s tmp = .ok (s1, tmp) ∧
      applyUpdateDiff Hf op (mkUpdEvent id0 h2 w2) s1 tmp = .ok (s2, tmp) ∧
      s2.valueTable = s.valueTable ++
        [{ rowId := s.nextValueRow, bigmapId := id0, keyId := Hf id0 h1,
           key := h1, value := w1 },
         { rowId := s.nextValueRow + 1, bigmapId := id0, keyId := Hf id0 h2,
           key := h2, value := w2 }] ∧
      applyRemoveDiff Hf op (mkRemEvent id0 h1) s2 tmp = .ok (s3, tmp) ∧
      s3.valueTable = s.valueTable ++
        [{ rowId := s.nextValueRow + 1, bigmapId := id0, keyId := Hf id0 h2,
           key := h2, value := w2 }] := by
  have hidn : ¬ id0 < 0 := not_lt.mpr hid
  have hne21 : h2 ≠ h1 := Ne.symm hne
  have hprev1 : findPrevValue s.valueTable id0 (Hf id0 h1) h1 = none :=
    findPrevValue_eq_none _ _ _ _ (fun r hr hb => (hclean r hr hb).1)
  obtain ⟨s1, happ1, hv1, hn1⟩ :=
    applyUpdateDiff_no_prev Hf op (mkUpdEvent id0 h1 w1) s tmp hidn hprev1
  have hrow1 : s1.valueTable = s.valueTable ++
      [{ rowId := s.nextValueRow, bigmapId := id0, keyId := Hf id0 h1,
         key := h1, value := w1 }] := by
    rw [hv1]
    simp [NewBigmapValue, mkUpdEvent]
  have hprev2 : findPrevValue s1.valueTable id0 (Hf id0 h2) h2 = none := by
    apply findPrevValue_eq_none
    intro r hr hb
    rw [hrow1] at hr
    rcases List.mem_append.mp hr with hr | hr
    · exact (hclean r hr hb).2
    · simp at hr
      rw [hr]
      simpa using hne
  obtain ⟨s2, happ2, hv2, hn2⟩ :=
    applyUpdateDiff_no_prev Hf op (mkUpdEvent id0 h2 w2) s1 tmp hidn hprev2
  have hrow2 : s2.valueTable = s.valueTable ++
      [{ rowId := s.nextValueRow, bigmapId := id0, keyId := Hf id0 h1,
         key := h1, value := w1 },
       { rowId := s.nextValueRow + 1, bigmapId := id0, keyId := Hf id0 h2,
         key := h2, value := w2 }] := by
    rw [hv2, hrow1, hn1]
    simp [NewBigmapValue, mkUpdEvent]
  have hprev3 : findPrevValue s2.valueTable id0 (Hf id0 h1) h1 =
      some { rowId := s.nextValueRow, bigmapId := id0, keyId := Hf id0 h1,
             key := h1, value := w1 } := by
    unfold findPrevValue
    rw [hrow2, List.filter_append]
    have hfilter2 : List.filter
        (fun (r : BigmapValue) => decide (r.bigmapId = id0 ∧ r.keyId = Hf id0 h1))
        [{ rowId := s.nextValueRow, bigmapId := id0, keyId := Hf id0 h1,
           key := h1, value := w1 },
         { rowId := s.nextValueRow + 1, bigmapId := id0, keyId := Hf id0 h2,
           key := h2, value := w2 }] =
        [{ rowId := s.nextValueRow, bigmapId := id0, keyId := Hf id0 h1,
           key := h1, value := w1 },
         { rowId := s.nextValueRow + 1, bigmapId := id0, keyId := Hf id0 h2,
           key := h2, value := w2 }] := by
      simp [hcol]
    rw [hfilter2, List.reverse_append]
    simp [List.find?, hne21]
  obtain ⟨s3, happ3, hv3⟩ :=
    applyRemoveDiff_prev Hf op (mkRemEvent id0 h1) s2 tmp h1
      { rowId := s.nextValueRow, bigmapId := id0, keyId := Hf id0 h1,
        key := h1, value := w1 } hidn rfl hprev3
  have hrow3 : s3.valueTable = s.valueTable ++
      [{ rowId := s.nextValueRow + 1, bigmapId := id0, keyId := Hf id0 h2,
         key := h2, value := w2 }] := by
    rw [hv3, hrow2, List.filter_append]
    have hA : List.filter (fun v => decide (¬ v.rowId ∈ [s.nextValueRow]))
        s.valueTable = s.valueTable := by
      apply List.filter_eq_self.mpr
      intro r hr
      have := hrow r hr
      simp
      omega
    rw [hA]
    simp
  exact ⟨s1, s2, s3, happ1, happ2, hrow2, happ3, hrow3⟩

/-- C8 witness: under the constant (always colliding) hash, updating keys
`[1]` and `[2]` of big-map 1 from the empty state and then removing key
`[1]` exercises the theorem at a concrete input. -/
theorem bigmap_keyid_collision_yields_independent_rows_witness :
    ((0 : Int) ≤ 1 ∧ ([1] : List Nat) ≠ [2] ∧ HcConst 1 [1] = HcConst 1 [2]) ∧
    (∃ s1 s2 s3,
      applyUpdateDiff HcConst opW (mkUpdEvent 1 [1] [4]) emptyState [] =
        .ok (s1, ([] : Tmp)) ∧
      applyUpdateDiff HcConst opW (mkUpdEvent 1 [2] [6]) s1 [] =
        .ok (s2, ([] : Tmp)) ∧
      s2.valueTable = emptyState.valueTable ++
        [{ rowId := emptyState.nextValueRow, bigmapId := 1,
           keyId := HcConst 1 [1], key := [1], value := [4] },
         { rowId := emptyState.nextValueRow + 1, bigmapId := 1,
           keyId := HcConst 1 [2], key := [2], value := [6] }] ∧
      applyRemoveDiff HcConst opW (mkRemEvent 1 [1]) s2 [] =
        .ok (s3, ([] : Tmp)) ∧
      s3.valueTable = emptyState.valueTable ++
        [{ rowId := emptyState.nextValueRow + 1, bigmapId := 1,
           keyId := HcConst 1 [2], key := [2], value := [6] }]) := by
  refine ⟨⟨by decide, by decide, rfl⟩, ?_⟩
  exact bigmap_keyid_collision_yields_independent_rows HcConst opW emptyState
    [] 1 [1] [2] [4] [6] (by decide) (by decide) rfl
    (by intro r hr; simp [emptyState] at hr)
    (by intro r hr; simp [emptyState] at hr)

/-- Membership in an insert-or-replace association list. -/
theorem mem_alInsert {κ α : Type} [DecidableEq κ] (l : List (κ × α)) (k : κ)
    (v : α) (p : κ × α) (hp : p ∈ alInsert l k v) : p ∈ l ∨ p = (k, v) := by
  unfold alInsert at hp
  split at hp
  · obtain ⟨q, hq, hpq⟩ := List.mem_map.mp hp
    by_cases hqk : q.1 = k
    · right
      rw [← hpq]
      simp [hqk]
    · left
      rw [← hpq]
      simpa [hqk] using hq
  · rcases List.mem_append.mp hp with h | h
    · exact Or.inl h
    · right
      simpa using h

/-- A successful association-list lookup is a member. -/
theorem alLookup_mem {κ α : Type} [DecidableEq κ] (l : List (κ × α)) (k : κ)
    (a : α) (h : alLookup l k = some a) : (k, a) ∈ l := by
  induction l with
  | nil => simp [alLookup] at h
  | cons p rest ih =>
    unfold alLookup at h
    split at h
    · have hpk : p.1 = k := by assumption
      have hpa : p.2 = a := by simpa using h
      have hpe : (k, a) = p := by
        cases p
        simp at hpk hpa
        rw [hpk, hpa]
      rw [hpe]
      exact List.mem_cons_self _ _
    · exact List.mem_cons_of_mem _ (ih h)

/-- `cacheAdd` keeps the state free of negative ids when fed one. -/
theorem cacheAdd_nonneg (s : EngineState) (k : Int) (a : BigmapAlloc)
    (hs : StateNonneg s) (hk : 0 ≤ k) (ha : 0 ≤ a.bigmapId) :
    StateNonneg (cacheAdd s k a) := by
  obtain ⟨h1, h2, h3⟩ := hs
  refine ⟨h1, h2, ?_⟩
  intro p hp
  rcases mem_alInsert _ _ _ _ hp with hp | hp
  · exact h3 p hp
  · rw [hp]
    exact ⟨hk, ha⟩

/-- `insertAllocRow` keeps the state free of negative ids when fed one. -/
theorem insertAllocRow_nonneg (s : EngineState) (a : BigmapAlloc)
    (hs : StateNonneg s) (ha : 0 ≤ a.bigmapId) :
    StateNonneg ((insertAllocRow s a).2) := by
  obtain ⟨h1, h2, h3⟩ := hs
  refine ⟨?_, h2, h3⟩
  intro b hb
  simp [insertAllocRow] at hb
  rcases hb with hb | hb
  · exact h1 b hb
  · rw [hb]
    exact ha

/-- `insertUpdateRow` touches only the update table. -/
theorem insertUpdateRow_nonneg (s : EngineState) (u : BigmapUpdate)
    (hs : StateNonneg s) : StateNonneg (insertUpdateRow s u) := by
  obtain ⟨h1, h2, h3⟩ := hs
  exact ⟨h1, h2, h3⟩

/-- `insertUpdateRows` touches only the update table. -/
theorem insertUpdateRows_nonneg (us : List BigmapUpdate) :
    ∀ s : EngineState, StateNonneg s → StateNonneg (insertUpdateRows s us) := by
  induction us with
  | nil => intro s hs; simpa [insertUpdateRows] using hs
  | cons u us ih =>
    intro s hs
    have h1 : insertUpdateRows s (u :: us) =
        insertUpdateRows (insertUpdateRow s u) us := rfl
    rw [h1]
    exact ih _ (insertUpdateRow_nonneg s u hs)

/-- `insertValueRow` keeps the state free of negative ids when fed one. -/
theorem insertValueRow_nonneg (s : EngineState) (v : BigmapValue)
    (hs : StateNonneg s) (hv : 0 ≤ v.bigmapId) :
    StateNonneg ((insertValueRow s v).2) := by
  obtain ⟨h1, h2, h3⟩ := hs
  refine ⟨h1, ?_, h3⟩
  intro w hw
  simp [insertValueRow] at hw
  rcases hw with hw | hw
  · exact h2 w hw
  · rw [hw]
    exact hv

/-- `insertValueRows` keeps the state free of negative ids when fed some. -/
theorem insertValueRows_nonneg (vs : List BigmapValue) :
    ∀ s : EngineState, StateNonneg s → (∀ v ∈ vs, 0 ≤ v.bigmapId) →
    StateNonneg (insertValueRows s vs) := by
  induction vs with
  | nil => intro s hs _; simpa [insertValueRows] using hs
  | cons v vs ih =>
    intro s hs hv
    have h1 : insertValueRows s (v :: vs) =
        insertValueRows ((insertValueRow s v).2) vs := rfl
    rw [h1]
    exact ih _ (insertValueRow_nonneg s v hs (hv v (by simp)))
      (fun w hw => hv w (by simp [hw]))

/-- `updateValueRow` keeps the state free of negative ids when fed one. -/
theorem updateValueRow_nonneg (s : EngineState) (v : BigmapValue)
    (hs : StateNonneg s) (hv : 0 ≤ v.bigmapId) :
    StateNonneg (updateValueRow s v) := by
  obtain ⟨h1, h2, h3⟩ := hs
  refine ⟨h1, ?_, h3⟩
  intro w hw
  simp [updateValueRow] at hw
  obtain ⟨x, hx, hxw⟩ := hw
  by_cases hxr : x.rowId = v.rowId
  · rw [← hxw]
    simpa [hxr] using hv
  · rw [← hxw]
    simpa [hxr] using h2 x hx

/-- `updateAllocRow` keeps the state free of negative ids when fed one. -/
theorem updateAllocRow_nonneg (s : EngineState) (a : BigmapAlloc)
    (hs : StateNonneg s) (ha : 0 ≤ a.bigmapId) :
    StateNonneg (updateAllocRow s a) := by
  obtain ⟨h1, h2, h3⟩ := hs
  refine ⟨?_, h2, h3⟩
  intro w hw
  simp [updateAllocRow] at hw
  obtain ⟨x, hx, hxw⟩ := hw
  by_cases hxr : x.rowId = a.rowId
  · rw [← hxw]
    simpa [hxr] using ha
  · rw [← hxw]
    simpa [hxr] using h1 x hx

/-- `deleteValueIds` only removes rows. -/
theorem deleteValueIds_nonneg (s : EngineState) (ids : List Nat)
    (hs : StateNonneg s) : StateNonneg (deleteValueIds s ids) := by
  obtain ⟨h1, h2, h3⟩ := hs
  refine ⟨h1, ?_, h3⟩
  intro w hw
  exact h2 w (List.mem_of_mem_filter hw)

/-- `storeAlloc` keeps the state free of negative ids when fed one. -/
theorem storeAlloc_nonneg (s : EngineState) (i : Int) (a : BigmapAlloc)
    (hs : StateNonneg s) (hi : 0 ≤ i) (ha : 0 ≤ a.bigmapId) :
    StateNonneg (storeAlloc s i a) :=
  cacheAdd_nonneg _ _ _ (updateAllocRow_nonneg s a hs ha) hi ha

/-- `loadAlloc` of a non-negative id preserves the invariant and returns an
allocation with a non-negative big-map id. -/
theorem loadAlloc_nonneg (s : EngineState) (i : Int)
    (hs : StateNonneg s) (hi : 0 ≤ i) :
    StateNonneg ((loadAlloc s i).2) ∧ 0 ≤ ((loadAlloc s i).1).bigmapId := by
  unfold loadAlloc
  rcases hl : alLookup s.allocCache i with _ | a
  · rcases hf : s.allocTable.find? (fun r => decide (r.bigmapId = i)) with _ | r
    · constructor
      · apply cacheAdd_nonneg _ _ _ hs hi
        rw [hf]
        simp
      · rw [hf]
        simp
    · have hr : r ∈ s.allocTable := List.mem_of_find?_eq_some hf
      have h0 := hs.1 r hr
      constructor
      · apply cacheAdd_nonneg _ _ _ hs hi
        rw [hf]
        simpa using h0
      · rw [hf]
        simpa using h0
  · have := hs.2.2 (i, a) (alLookup_mem _ _ _ hl)
    exact ⟨hs, this.2⟩

/-- The persist step of the `Copy` branch keeps the durable state free of
negative ids: a negative destination stays in the scratch map, a
non-negative one inserts rows tagged with the destination id. -/
theorem storeCopied_nonneg (d : BigmapEvent) (alloc : BigmapAlloc)
    (live : List BigmapValue) (updates : List BigmapUpdate)
    (s : EngineState) (tmp : Tmp) (hs : StateNonneg s)
    (ha : alloc.bigmapId = d.destId)
    (hl : ∀ v ∈ live, v.bigmapId = d.destId) :
    StateNonneg ((storeCopied d alloc live updates s tmp).1) := by
  unfold storeCopied
  split
  · exact hs
  case isFalse hneg =>
    rcases hA : insertAllocRow s alloc with ⟨a, s1⟩
    dsimp only
    have hd : 0 ≤ d.destId := by omega
    have hsa : StateNonneg s1 := by
      have h0 := insertAllocRow_nonneg s alloc hs (by rw [ha]; exact hd)
      rw [hA] at h0
      exact h0
    have hab : a.bigmapId = alloc.bigmapId := by
      have hfst := congrArg Prod.fst hA
      simp [insertAllocRow] at hfst
      rw [← hfst]
    apply insertUpdateRows_nonneg
    apply insertValueRows_nonneg
    · apply cacheAdd_nonneg _ _ _ hsa
      · rw [hab, ha]
        exact hd
      · rw [hab, ha]
        exact hd
    · intro v hv
      rw [hl v hv]
      exact hd

/-- The `Alloc` branch keeps the durable state free of negative ids. -/
theorem applyAllocDiff_nonneg (Hf : Int → List Nat → Nat) (ver : Nat)
    (unf : Nat → Nat) (op : Op) (d : BigmapEvent) (s : EngineState)
    (tmp : Tmp) (hs : StateNonneg s) :
    StateNonneg ((applyAllocDiff Hf ver unf op d s tmp).1) := by
  unfold applyAllocDiff
  dsimp only
  split
  · exact hs
  case isFalse hneg =>
    rcases hA : insertAllocRow s
        (NewBigmapAlloc op (reconcileAllocTypes unf ver op.scriptTypes d))
      with ⟨a, s1⟩
    dsimp only
    have hid : 0 ≤ (reconcileAllocTypes unf ver op.scriptTypes d).id := by
      omega
    have hsa : StateNonneg s1 := by
      have h0 := insertAllocRow_nonneg s
        (NewBigmapAlloc op (reconcileAllocTypes unf ver op.scriptTypes d)) hs
        (by simpa [NewBigmapAlloc] using hid)
      rw [hA] at h0
      exact h0
    have hab : 0 ≤ a.bigmapId := by
      have hfst := congrArg Prod.fst hA
      simp [insertAllocRow] at hfst
      rw [← hfst]
      simpa [NewBigmapAlloc] using hid
    apply insertUpdateRow_nonneg
    exact cacheAdd_nonneg _ _ _ hsa hab hab

/-- The `Copy` branch keeps the durable state free of negative ids. -/
theorem applyCopyDiff_nonneg (Hf : Int → List Nat → Nat) (op : Op)
    (d : BigmapEvent) (s : EngineState) (tmp : Tmp) (s2 : EngineState)
    (tmp2 : Tmp) (hs : StateNonneg s)
    (h : applyCopyDiff Hf op d s tmp = .ok (s2, tmp2)) :
    StateNonneg s2 := by
  unfold applyCopyDiff at h
  split at h
  · split at h
    · exact absurd h (by simp)
    · have h2 := congrArg Prod.fst (Except.ok.inj h)
      dsimp only at h2
      rw [← h2]
      apply storeCopied_nonneg _ _ _ _ _ _ hs
      · simp [CopyBigmapAlloc]
      · intro v hv
        obtain ⟨w, hw, hvw⟩ := List.mem_map.mp hv
        rw [← hvw]
        simp [CopyBigmapValue]
  case isFalse hsrc =>
    split at h
    case _ srcA s1 heq =>
      have hsa : StateNonneg s1 := by
        have h0 := (loadAlloc_nonneg s d.sourceId hs (by omega)).1
        rw [heq] at h0
        exact h0
      have h2 := congrArg Prod.fst (Except.ok.inj h)
      dsimp only at h2
      rw [← h2]
      apply storeCopied_nonneg _ _ _ _ _ _ hsa
      · simp [CopyBigmapAlloc]
      · intro v hv
        obtain ⟨w, hw, hvw⟩ := List.mem_map.mp hv
        rw [← hvw]
        simp [CopyBigmapValue]

/-- The `Remove` branch keeps the durable state free of negative ids. -/
theorem applyRemoveDiff_nonneg (Hf : Int → List Nat → Nat) (op : Op)
    (d : BigmapEvent) (s : EngineState) (tmp : Tmp) (s2 : EngineState)
    (tmp2 : Tmp) (hs : StateNonneg s)
    (h : applyRemoveDiff Hf op d s tmp = .ok (s2, tmp2)) :
    StateNonneg s2 := by
  unfold applyRemoveDiff at h
  split at h
  · -- invalid key hash: full removal
    split at h
    · split at h
      · exact absurd h (by simp)
      · have h2 := congrArg Prod.fst (Except.ok.inj h)
        dsimp only at h2
        rw [← h2]
        exact insertUpdateRow_nonneg _ _ hs
    case isFalse hid =>
      split at h
      case _ alloc s1 heq =>
        have hdn : 0 ≤ d.id := by omega
        have hload := loadAlloc_nonneg s d.id hs hdn
        have hsa : StateNonneg s1 := by
          have h0 := hload.1
          rw [heq] at h0
          exact h0
        have hai : 0 ≤ alloc.bigmapId := by
          have h0 := hload.2
          rw [heq] at h0
          exact h0
        have h2 := congrArg Prod.fst (Except.ok.inj h)
        dsimp only at h2
        rw [← h2]
        apply deleteValueIds_nonneg
        apply insertUpdateRows_nonneg
        apply storeAlloc_nonneg _ _ _ _ hdn (by simpa using hai)
        exact insertUpdateRow_nonneg _ _ hsa
  · -- single-key removal
    split at h
    · split at h
      · exact absurd h (by simp)
      · dsimp only at h
        split at h
        case _ v heq2 =>
          have h2 := congrArg Prod.fst (Except.ok.inj h)
          dsimp only at h2
          rw [← h2]
          exact insertUpdateRow_nonneg _ _ hs
        case _ heq2 =>
          have h2 := congrArg Prod.fst (Except.ok.inj h)
          dsimp only at h2
          rw [← h2]
          exact hs
    case isFalse hid =>
      split at h
      case _ alloc s1 heq =>
        have hdn : 0 ≤ d.id := by omega
        have hload := loadAlloc_nonneg s d.id hs hdn
        have hsa : StateNonneg s1 := by
          have h0 := hload.1
          rw [heq] at h0
          exact h0
        have hai : 0 ≤ alloc.bigmapId := by
          have h0 := hload.2
          rw [heq] at h0
          exact h0
        dsimp only at h
        split at h
        case _ p heq2 =>
          have h2 := congrArg Prod.fst (Except.ok.inj h)
          dsimp only at h2
          rw [← h2]
          apply storeAlloc_nonneg _ _ _ _ hdn (by simpa using hai)
          apply insertUpdateRow_nonneg
          exact deleteValueIds_nonneg _ _ hsa
        case _ heq2 =>
          have h2 := congrArg Prod.fst (Except.ok.inj h)
          dsimp only at h2
          rw [← h2]
          apply storeAlloc_nonneg _ _ _ _ hdn (by simpa using hai)
          exact insertUpdateRow_nonneg _ _ hsa

/-- The `Update` branch keeps the durable state free of negative ids. -/
theorem applyUpdateDiff_nonneg (Hf : Int → List Nat → Nat) (op : Op)
    (d : BigmapEvent) (s : EngineState) (tmp : Tmp) (s2 : EngineState)
    (tmp2 : Tmp) (hs : StateNonneg s)
    (h : applyUpdateDiff Hf op d s tmp = .ok (s2, tmp2)) :
    StateNonneg s2 := by
  unfold applyUpdateDiff at h
  split at h
  · split at h
    · exact absurd h (by simp)
    · have h2 := congrArg Prod.fst (Except.ok.inj h)
      dsimp only at h2
      rw [← h2]
      exact insertUpdateRow_nonneg _ _ hs
  case isFalse hid =>
    split at h
    case _ alloc s1 heq =>
      have hdn : 0 ≤ d.id := by omega
      have hload := loadAlloc_nonneg s d.id hs hdn
      have hsa : StateNonneg s1 := by
        have h0 := hload.1
        rw [heq] at h0
        exact h0
      have hai : 0 ≤ alloc.bigmapId := by
        have h0 := hload.2
        rw [heq] at h0
        exact h0
      dsimp only at h
      split at h
      case _ p heq2 =>
        have h2 := congrArg Prod.fst (Except.ok.inj h)
        dsimp only at h2
        rw [← h2]
        apply storeAlloc_nonneg _ _ _ _ hdn (by simpa using hai)
        apply insertUpdateRow_nonneg
        exact updateValueRow_nonneg _ _ hsa (by simpa [NewBigmapValue] using hdn)
      case _ heq2 =>
        have h2 := congrArg Prod.fst (Except.ok.inj h)
        dsimp only at h2
        rw [← h2]
        apply storeAlloc_nonneg _ _ _ _ hdn (by simpa using hai)
        apply insertUpdateRow_nonneg
        exact insertValueRow_nonneg _ _ hsa (by simpa [NewBigmapValue] using hdn)

/-- Dispatch preserves the invariant. -/
theorem processDiff_nonneg (Hf : Int → List Nat → Nat) (ver : Nat)
    (unf : Nat → Nat) (op : Op) (st : EngineState × Tmp) (d : BigmapEvent)
    (st2 : EngineState × Tmp) (hs : StateNonneg st.1)
    (h : processDiff Hf ver unf op st d = .ok st2) : StateNonneg st2.1 := by
  unfold processDiff at h
  obtain ⟨s2, tmp2⟩ := st2
  cases hact : d.action <;> rw [hact] at h
  · have h2 := congrArg Prod.fst (Except.ok.inj h)
    dsimp only at h2
    rw [show s2 = ((s2, tmp2).1) from rfl, ← h2]
    exact applyAllocDiff_nonneg Hf ver unf op d st.1 st.2 hs
  · exact applyCopyDiff_nonneg Hf op d st.1 st.2 s2 tmp2 hs h
  · exact applyUpdateDiff_nonneg Hf op d st.1 st.2 s2 tmp2 hs h
  · exact applyRemoveDiff_nonneg Hf op d st.1 st.2 s2 tmp2 hs h

/-- A diff sequence preserves the invariant. -/
theorem processDiffs_nonneg (Hf : Int → List Nat → Nat) (ver : Nat)
    (unf : Nat → Nat) (op : Op) (ds : List BigmapEvent) :
    ∀ st st2, StateNonneg st.1 →
      processDiffs Hf ver unf op st ds = .ok st2 → StateNonneg st2.1 := by
  induction ds with
  | nil =>
    intro st st2 hs h
    unfold processDiffs at h
    have h2 := Except.ok.inj h
    rw [← h2]
    exact hs
  | cons d ds ih =>
    intro st st2 hs h
    unfold processDiffs at h
    split at h
    · exact absurd h (by simp)
    case _ st1 heq =>
      exact ih st1 st2 (processDiff_nonneg Hf ver unf op st d st1 hs heq) h

/-- One operation preserves the invariant. -/
theorem processOp_nonneg (Hf : Int → List Nat → Nat) (ver : Nat)
    (unf : Nat → Nat) (st : EngineState × Tmp) (op : Op)
    (st2 : EngineState × Tmp) (hs : StateNonneg st.1)
    (h : processOp Hf ver unf st op = .ok st2) : StateNonneg st2.1 := by
  unfold processOp at h
  dsimp only at h
  split at h
  · have h2 := Except.ok.inj h
    rw [← h2]
    exact hs
  · exact processDiffs_nonneg Hf ver unf op op.events _ st2 (by exact hs) h

/-- An operation sequence preserves the invariant. -/
theorem processOps_nonneg (Hf : Int → List Nat → Nat) (ver : Nat)
    (unf : Nat → Nat) (ops : List Op) :
    ∀ st st2, StateNonneg st.1 →
      processOps Hf ver unf st ops = .ok st2 → StateNonneg st2.1 := by
  induction ops with
  | nil =>
    intro st st2 hs h
    unfold processOps at h
    have h2 := Except.ok.inj h
    rw [← h2]
    exact hs
  | cons op ops ih =>
    intro st st2 hs h
    unfold processOps at h
    split at h
    · exact absurd h (by simp)
    case _ st1 heq =>
      exact ih st1 st2 (processOp_nonneg Hf ver unf st op st1 hs heq) h

/-- C2 (amended).  After any successfully connected block, no temporary
(negative-id) big-map state is observable in the allocations table, the
live-values table or the allocation cache — the scratch map itself is local
to `ConnectBlock` and is discarded at return; the updates table, however,
does retain update-log rows for temporary big-maps (see the
counterexample). -/
theorem bigmap_temp_isolation_tables_and_cache (Hf : Int → List Nat → Nat)
    (unf : Nat → Nat) (b : Block) (s s2 : EngineState)
    (hs : StateNonneg s) (h : ConnectBlock Hf unf b s = .ok s2) :
    StateNonneg s2 := by
  unfold ConnectBlock at h
  cases hp : processOps Hf b.version unf (s, ([] : Tmp)) b.ops with
  | error e =>
    rw [hp] at h
    exact absurd h (by simp [Except.map])
  | ok st =>
    rw [hp] at h
    simp [Except.map] at h
    rw [← h]
    exact processOps_nonneg Hf b.version unf b.ops (s, ([] : Tmp)) st hs hp

/-- C2 witness: running `ConnectBlock` on the temporary-big-map block from
the empty state keeps the allocations table, live-values table and
allocation cache free of negative ids. -/
theorem bigmap_temp_isolation_tables_and_cache_witness :
    StateNonneg emptyState ∧ StateNonneg tempFinalS := by
  constructor
  · exact ⟨by intro a ha; simp [emptyState] at ha,
      by intro v hv; simp [emptyState] at hv,
      by intro p hp; simp [emptyState] at hp⟩
  · exact bigmap_temp_isolation_tables_and_cache Hc id blockT emptyState
      tempFinalS
      ⟨by intro a ha; simp [emptyState] at ha,
       by intro v hv; simp [emptyState] at hv,
       by intro p hp; simp [emptyState] at hp⟩
      (by rfl)

/-- Insert-or-replace on a cons cell. -/
theorem alInsert_cons {κ α : Type} [DecidableEq κ] (p : κ × α)
    (rest : List (κ × α)) (k : κ) (v : α) :
    alInsert (p :: rest) k v =
      if p.1 = k then
        (k, v) :: rest.map (fun q => if q.1 = k then (k, v) else q)
      else p :: alInsert rest k v := by
  by_cases hp : p.1 = k
  · simp [alInsert, hp]
  · by_cases hr : rest.any (fun q => decide (q.1 = k))
    · simp [alInsert, hp, hr]
    · simp [alInsert, hp, hr]

/-- Looking up the inserted key finds the new value. -/
theorem alLookup_alInsert_self {κ α : Type} [DecidableEq κ]
    (kv : List (κ × α)) (k : κ) (v : α) :
    alLookup (alInsert kv k v) k = some v := by
  induction kv with
  | nil => simp [alInsert, alLookup]
  | cons p rest ih =>
    rw [alInsert_cons]
    by_cases hp : p.1 = k
    · simp [hp, alLookup]
    · simp [hp, alLookup, ih]

/-- Looking up a different key is unaffected by an insert. -/
theorem alLookup_alInsert_ne {κ α : Type} [DecidableEq κ]
    (kv : List (κ × α)) (k k2 : κ) (v : α) (hk : k2 ≠ k) :
    alLookup (alInsert kv k v) k2 = alLookup kv k2 := by
  induction kv with
  | nil =>
    simp [alInsert, alLookup]
    exact fun h => hk h.symm
  | cons p rest ih =>
    rw [alInsert_cons]
    by_cases hp : p.1 = k
    · rw [if_pos hp]
      simp only [alLookup]
      rw [if_neg (fun h : k = k2 => hk h.symm)]
      rw [show (if p.1 = k2 then some p.2 else alLookup rest k2) =
          alLookup rest k2 from by
        rw [if_neg (by rw [hp]; exact fun h => hk h.symm)]]
      clear ih hp
      induction rest with
      | nil => simp [alLookup]
      | cons q rest ihq =>
        by_cases hq : q.1 = k
        · simp only [List.map_cons, if_pos hq, alLookup]
          rw [if_neg (fun h : k = k2 => hk h.symm),
              if_neg (by rw [hq]; exact fun h => hk h.symm)]
          exact ihq
        · simp only [List.map_cons, if_neg hq, alLookup]
          by_cases hq2 : q.1 = k2
          · rw [if_pos hq2, if_pos hq2]
          · rw [if_neg hq2, if_neg hq2]
            exact ihq
    · rw [if_neg hp]
      simp only [alLookup]
      by_cases hp2 : p.1 = k2
      · rw [if_pos hp2, if_pos hp2]
      · rw [if_neg hp2, if_neg hp2]
        exact ih

/-- Looking up the erased key misses. -/
theorem alLookup_alErase_self {κ α : Type} [DecidableEq κ]
    (kv : List (κ × α)) (k : κ) :
    alLookup (alErase kv k) k = none := by
  induction kv with
  | nil => simp [alErase, alLookup]
  | cons p rest ih =>
    by_cases hp : p.1 = k
    · simpa [alErase, hp] using ih
    · simpa [alErase, alLookup, hp] using ih

/-- Looking up a different key is unaffected by an erase. -/
theorem alLookup_alErase_ne {κ α : Type} [DecidableEq κ]
    (kv : List (κ × α)) (k k2 : κ) (hk : k2 ≠ k) :
    alLookup (alErase kv k) k2 = alLookup kv k2 := by
  induction kv with
  | nil => simp [alErase, alLookup]
  | cons p rest ih =>
    by_cases hp : p.1 = k
    · rw [show alErase (p :: rest) k = alErase rest k by simp [alErase, hp]]
      rw [ih]
      simp only [alLookup]
      rw [if_neg (by rw [hp]; exact fun h => hk h.symm)]
    · rw [show alErase (p :: rest) k = p :: alErase rest k by simp [alErase, hp]]
      simp only [alLookup]
      split
      · rfl
      · exact ih

/-- The keys of an insert-or-replace: unchanged on replace, appended on a
fresh key. -/
theorem alInsert_keys {κ α : Type} [DecidableEq κ] (kv : List (κ × α))
    (k : κ) (v : α) :
    (alInsert kv k v).map Prod.fst =
      if kv.any (fun p => decide (p.1 = k)) then kv.map Prod.fst
      else kv.map Prod.fst ++ [k] := by
  unfold alInsert
  split
  · rw [List.map_map]
    apply List.map_congr_left
    intro p _
    by_cases hp : p.1 = k
    · simp [hp]
    · simp [hp]
  · simp

/-- `kvProjEq` is transitive (plain equality of lookups). -/
theorem kvProjEq_trans (kv1 kv2 kv3 : List (Nat × BigmapValue))
    (h1 : kvProjEq kv1 kv2) (h2 : kvProjEq kv2 kv3) : kvProjEq kv1 kv3 :=
  fun kid => (h1 kid).trans (h2 kid)

/-- `kvProjEq` is symmetric. -/
theorem kvProjEq_symm (kv1 kv2 : List (Nat × BigmapValue))
    (h : kvProjEq kv1 kv2) : kvProjEq kv2 kv1 :=
  fun kid => (h kid).symm

/-- Replaying one row preserves live-set agreement: inserts write the same
entry under the same key id on both sides, removes delete the same key
id. -/
theorem replayStep_proj_congr (r : BigmapUpdate)
    (kv1 kv2 : List (Nat × BigmapValue)) (h : kvProjEq kv1 kv2) :
    kvProjEq (replayStep kv1 r) (replayStep kv2 r) := by
  intro kid
  unfold replayStep
  cases r.action
  · exact h kid
  · exact h kid
  · by_cases hk : kid = r.keyId
    · rw [hk, alLookup_alInsert_self, alLookup_alInsert_self]
    · rw [alLookup_alInsert_ne _ _ _ _ hk, alLookup_alInsert_ne _ _ _ _ hk]
      exact h kid
  · by_cases hk : kid = r.keyId
    · rw [hk, alLookup_alErase_self, alLookup_alErase_self]
    · rw [alLookup_alErase_ne _ _ _ hk, alLookup_alErase_ne _ _ _ hk]
      exact h kid

/-- Replaying a row sequence preserves live-set agreement. -/
theorem foldl_replayStep_proj_congr (rs : List BigmapUpdate) :
    ∀ kv1 kv2, kvProjEq kv1 kv2 →
      kvProjEq (rs.foldl replayStep kv1) (rs.foldl replayStep kv2) := by
  induction rs with
  | nil => intro kv1 kv2 h; simpa using h
  | cons r rs ih =>
    intro kv1 kv2 h
    exact ih _ _ (replayStep_proj_congr r kv1 kv2 h)

/-- For a height-sorted log, the rows up to `h2v` split into the rows up to
`h1v` followed by the rows strictly between `h1v` and `h2v`. -/
theorem filter_height_partition (id : Int) (h1v h2v : Int) (hle : h1v ≤ h2v)
    (log : List BigmapUpdate)
    (hsort : log.Pairwise (fun a b => a.height ≤ b.height)) :
    log.filter (fun r => decide (r.bigmapId = id ∧ r.height ≤ h2v)) =
      log.filter (fun r => decide (r.bigmapId = id ∧ r.height ≤ h1v)) ++
      log.filter (fun r => decide (r.bigmapId = id ∧ h1v < r.height ∧
        r.height ≤ h2v)) := by
  induction hsort with
  | nil => simp
  | @cons r rest hr _ ih =>
    by_cases hcase : r.height ≤ h1v
    · by_cases hb : r.bigmapId = id
      · simp only [List.filter_cons]
        rw [if_pos (by simp only [decide_eq_true_eq]; exact ⟨hb, by omega⟩),
          if_pos (by simp only [decide_eq_true_eq]; exact ⟨hb, hcase⟩),
          if_neg (by simp only [decide_eq_true_eq]; intro hc; omega)]
        rw [ih]
        rfl
      · simp only [List.filter_cons]
        rw [if_neg (by simp only [decide_eq_true_eq]; intro hc; exact hb hc.1),
          if_neg (by simp only [decide_eq_true_eq]; intro hc; exact hb hc.1),
          if_neg (by simp only [decide_eq_true_eq]; intro hc; exact hb hc.1)]
        exact ih
    · have hAr : (r :: rest).filter
          (fun r2 => decide (r2.bigmapId = id ∧ r2.height ≤ h1v)) = [] := by
        apply List.filter_eq_nil_iff.mpr
        intro x hx
        rcases List.mem_cons.mp hx with hx | hx
        · simp only [decide_eq_true_eq, not_and]
          intro _
          rw [hx]
          omega
        · have := hr x hx
          simp only [decide_eq_true_eq, not_and]
          intro _
          omega
      rw [hAr, List.nil_append]
      refine (List.filter_congr ?_).symm
      intro x hx
      rcases List.mem_cons.mp hx with hx | hx
      · rw [hx, decide_eq_decide]
        constructor
        · intro hc
          exact ⟨hc.1, hc.2.2⟩
        · intro hc
          exact ⟨hc.1, by omega, hc.2⟩
      · have := hr x hx
        rw [decide_eq_decide]
        constructor
        · intro hc
          exact ⟨hc.1, hc.2.2⟩
        · intro hc
          exact ⟨hc.1, by omega, hc.2⟩

/-- `packEntries` stamps the requested big-map id and height. -/
theorem packEntries_fields (id ht : Int) (l : List BigmapValue) :
    (packEntries id ht l).bigmapId = id ∧ (packEntries id ht l).height = ht := by
  suffices h : ∀ init : BigmapHistory,
      (l.foldl packStep init).bigmapId = init.bigmapId ∧
      (l.foldl packStep init).height = init.height by
    exact h _
  intro init
  induction l generalizing init with
  | nil => exact ⟨rfl, rfl⟩
  | cons v vs ih => simpa [packStep] using ih (packStep init v)

/-- Slicing below the original length ignores appended data. -/
theorem slice_append (d e : List Nat) (a b : Nat) (hb : b ≤ d.length) :
    slice (d ++ e) a b = slice d a b := by
  unfold slice
  by_cases hab : a ≤ d.length
  · rw [List.drop_append_of_le_length hab]
    rw [List.take_append_of_le_length (by simp; omega)]
  · have hba : b - a = 0 := by omega
    rw [hba]
    simp

/-- `decodeAt` unfolded. -/
theorem decodeAt_def (Hf : Int → List Nat → Nat) (h : BigmapHistory)
    (i : Nat) :
    decodeAt Hf h i =
      { rowId := i + 1, bigmapId := h.bigmapId
      , keyId := Hf h.bigmapId
          (slice h.data (h.keyOffsets.getD i 0) (h.valueOffsets.getD i 0))
      , key := slice h.data (h.keyOffsets.getD i 0) (h.valueOffsets.getD i 0)
      , value := slice h.data (h.valueOffsets.getD i 0)
          (if i < h.keyOffsets.length - 1 then h.keyOffsets.getD (i + 1) 0
           else h.data.length) } := rfl

/-- A bounded offset list stays bounded after appending one bounded offset
(out-of-range reads default to 0). -/
theorem getD_append_singleton_le (ko : List Nat) (x D : Nat)
    (hko : ∀ j, ko.getD j 0 ≤ D) (hx : x ≤ D) :
    ∀ j, (ko ++ [x]).getD j 0 ≤ D := by
  intro j
  by_cases hj : j < ko.length
  · rw [List.getD_append _ _ _ _ hj]
    exact hko j
  · rw [List.getD_append_right _ _ _ _ (by omega)]
    rcases hnn : j - ko.length with _ | n
    · simpa [List.getD] using hx
    · simp [List.getD]

/-- Packing then decoding recovers every entry's key and value: offset and
length bookkeeping of `packEntries` against the slicing of `decodeAt`. -/
theorem packEntries_decode (Hf : Int → List Nat → Nat) (id ht : Int)
    (l : List BigmapValue) :
    (packEntries id ht l).keyOffsets.length = l.length ∧
    (packEntries id ht l).valueOffsets.length = l.length ∧
    (∀ j : Nat, (packEntries id ht l).keyOffsets.getD j 0 ≤
      (packEntries id ht l).data.length) ∧
    (∀ j : Nat, (packEntries id ht l).valueOffsets.getD j 0 ≤
      (packEntries id ht l).data.length) ∧
    (∀ i, i < l.length →
      (decodeAt Hf (packEntries id ht l) i).key = (l.getD i bv0).key ∧
      (decodeAt Hf (packEntries id ht l) i).value = (l.getD i bv0).value) := by
  induction l using List.reverseRecOn with
  | nil =>
    refine ⟨rfl, rfl, ?_, ?_, ?_⟩
    · intro j
      simp [packEntries, List.getD]
    · intro j
      simp [packEntries, List.getD]
    · intro i hi
      simp at hi
  | append_singleton l v ih =>
    obtain ⟨hkl, hvl, hkb, hvb, hdec⟩ := ih
    have hfold : packEntries id ht (l ++ [v]) =
        packStep (packEntries id ht l) v := by
      simp [packEntries, List.foldl_append]
    rw [hfold]
    simp only [packStep]
    refine ⟨by simp [hkl], by simp [hvl], ?_, ?_, ?_⟩
    · apply getD_append_singleton_le
      · intro j
        have := hkb j
        simp only [List.length_append]
        omega
      · simp only [List.length_append]
        omega
    · apply getD_append_singleton_le
      · intro j
        have := hvb j
        simp only [List.length_append]
        omega
      · simp only [List.length_append]
        omega
    · intro i hi
      simp only [List.length_append, List.length_singleton] at hi
      rw [decodeAt_def]
      simp only []
      by_cases hio : i < l.length
      · -- an old entry: offsets and slices are untouched
        have hk1 : ((packEntries id ht l).keyOffsets ++
            [(packEntries id ht l).data.length]).getD i 0 =
            (packEntries id ht l).keyOffsets.getD i 0 :=
          List.getD_append _ _ _ _ (by omega)
        have hv1 : ((packEntries id ht l).valueOffsets ++
            [(packEntries id ht l).data.length + v.key.length]).getD i 0 =
            (packEntries id ht l).valueOffsets.getD i 0 :=
          List.getD_append _ _ _ _ (by omega)
        have hvend : (((packEntries id ht l).keyOffsets ++
              [(packEntries id ht l).data.length]).getD (i + 1) 0) =
            (if i < (packEntries id ht l).keyOffsets.length - 1 then
              (packEntries id ht l).keyOffsets.getD (i + 1) 0
             else (packEntries id ht l).data.length) := by
          by_cases hi1 : i + 1 < l.length
          · rw [List.getD_append _ _ _ _ (by omega), if_pos (by omega)]
          · have hieq : i + 1 = l.length := by omega
            rw [List.getD_append_right _ _ _ _ (by omega), if_neg (by omega)]
            rw [show i + 1 - (packEntries id ht l).keyOffsets.length = 0 by omega]
            simp [List.getD]
        have hcond : i < ((packEntries id ht l).keyOffsets ++
            [(packEntries id ht l).data.length]).length - 1 := by
          simp only [List.length_append, List.length_singleton]
          omega
        rw [if_pos hcond, hk1, hv1, hvend]
        have hgl : (l ++ [v]).getD i bv0 = l.getD i bv0 :=
          List.getD_append _ _ _ _ hio
        rw [hgl]
        have hold := hdec i hio
        rw [decodeAt_def] at hold
        simp only [] at hold
        have hdata : (packEntries id ht l).data ++ v.key ++ v.value =
            (packEntries id ht l).data ++ (v.key ++ v.value) := by
          rw [List.append_assoc]
        rw [hdata]
        constructor
        · rw [slice_append _ _ _ _ (hvb i)]
          exact hold.1
        · have hv2 : (if i < (packEntries id ht l).keyOffsets.length - 1 then
              (packEntries id ht l).keyOffsets.getD (i + 1) 0
             else (packEntries id ht l).data.length) ≤
              (packEntries id ht l).data.length := by
            split
            · exact hkb (i + 1)
            · exact le_refl _
          rw [slice_append _ _ _ _ hv2]
          exact hold.2
      · -- the appended entry
        have hieq : i = l.length := by omega
        have hk1 : ((packEntries id ht l).keyOffsets ++
            [(packEntries id ht l).data.length]).getD i 0 =
            (packEntries id ht l).data.length := by
          rw [List.getD_append_right _ _ _ _ (by omega)]
          rw [show i - (packEntries id ht l).keyOffsets.length = 0 by omega]
          simp [List.getD]
        have hv1 : ((packEntries id ht l).valueOffsets ++
            [(packEntries id ht l).data.length + v.key.length]).getD i 0 =
            (packEntries id ht l).data.length + v.key.length := by
          rw [List.getD_append_right _ _ _ _ (by omega)]
          rw [show i - (packEntries id ht l).valueOffsets.length = 0 by omega]
          simp [List.getD]
        have hcond : ¬ (i < ((packEntries id ht l).keyOffsets ++
            [(packEntries id ht l).data.length]).length - 1) := by
          simp only [List.length_append, List.length_singleton]
          omega
        rw [if_neg hcond, hk1, hv1]
        have hgl : (l ++ [v]).getD i bv0 = v := by
          rw [List.getD_append_right _ _ _ _ (by omega)]
          rw [show i - l.length = 0 by omega]
          simp [List.getD]
        rw [hgl]
        constructor
        · rw [List.append_assoc]
          unfold slice
          rw [List.drop_left]
          rw [show (packEntries id ht l).data.length + v.key.length -
            (packEntries id ht l).data.length = v.key.length by omega]
          exact List.take_left _ _
        · unfold slice
          rw [show (packEntries id ht l).data ++ v.key ++ v.value =
            ((packEntries id ht l).data ++ v.key) ++ v.value from rfl]
          rw [show (packEntries id ht l).data.length + v.key.length =
            ((packEntries id ht l).data ++ v.key).length by simp]
          rw [List.drop_left]
          rw [show (((packEntries id ht l).data ++ v.key) ++ v.value).length -
            ((packEntries id ht l).data ++ v.key).length = v.value.length by
              simp only [List.length_append]; omega]
          exact List.take_length _

/-- C10 witness: a two-entry snapshot with `from = 0`, `to = -1` yields
exactly its first decoded entry; the second (last) entry is dropped. -/
theorem bigmap_history_range_clamp_drops_last_entry_witness :
    (1 ≤ snapW.keyOffsets.length ∧
      ((-1 : Int) < 0 ∨ (snapW.keyOffsets.length : Int) ≤ -1) ∧
      (0 : Int) ≤ 0) ∧
    BigmapHistory.Range Hc snapW 0 (-1) =
      (((List.range snapW.keyOffsets.length).map (decodeAt Hc snapW)).drop
        (0 : Int).toNat).take (snapW.keyOffsets.length - 1 - (0 : Int).toNat) := by
  refine ⟨⟨by decide, Or.inl (by decide), by decide⟩, ?_⟩
  exact (bigmap_history_range_clamp_drops_last_entry Hc snapW 0 (-1)
    (by decide) (Or.inl (by decide)) (by decide)).1

/-- A key absent from an association list looks up to nothing. -/
theorem alLookup_eq_none_of_not_mem {κ α : Type} [DecidableEq κ]
    (l : List (κ × α)) (k : κ) (h : k ∉ l.map Prod.fst) :
    alLookup l k = none := by
  induction l with
  | nil => rfl
  | cons p rest ih =>
    have hp : ¬ p.1 = k := fun he => h (by simp [he])
    have hr : k ∉ rest.map Prod.fst := fun he => h (by simp [he])
    simp [alLookup, hp, ih hr]

/-- Inserting a fresh key appends. -/
theorem alInsert_of_not_mem {κ α : Type} [DecidableEq κ]
    (l : List (κ × α)) (k : κ) (v : α) (h : k ∉ l.map Prod.fst) :
    alInsert l k v = l ++ [(k, v)] := by
  have hany : l.any (fun p => decide (p.1 = k)) = false := by
    simp only [List.any_eq_false, decide_eq_false_iff_not]
    intro p hp hpk
    exact h (List.mem_map.mpr ⟨p, hp, of_decide_eq_true hpk⟩)
  simp [alInsert, hany]

/-- Folding `alInsert` over an index range with pairwise distinct keys builds
exactly the indexed list of entries (nothing is ever replaced). -/
theorem foldl_alInsert_range {α : Type} (f : Nat → Nat × α) (n : Nat)
    (hdist : ∀ i j, i < n → j < n → i ≠ j → (f i).1 ≠ (f j).1) :
    (List.range n).foldl (fun acc i => alInsert acc (f i).1 (f i).2) [] =
      (List.range n).map f := by
  induction n with
  | zero => rfl
  | succ n ih =>
    have hstep : ∀ i j, i < n → j < n → i ≠ j → (f i).1 ≠ (f j).1 :=
      fun i j hi hj => hdist i j (by omega) (by omega)
    rw [List.range_succ, List.foldl_append, List.map_append, ih hstep]
    simp only [List.foldl_cons, List.foldl_nil, List.map_cons, List.map_nil]
    rw [alInsert_of_not_mem]
    intro hmem
    rw [List.map_map] at hmem
    obtain ⟨i, hi, he⟩ := List.mem_map.mp hmem
    have hin : i < n := List.mem_range.mp hi
    exact hdist i n (by omega) (by omega) (by omega) he

/-- Pointwise agreement on keys and projected entries gives live-set
agreement. -/
theorem kvProjEq_of_forall2 (kv1 kv2 : List (Nat × BigmapValue))
    (h : List.Forall₂ (fun p q => p.1 = q.1 ∧ p.2.key = q.2.key ∧
      p.2.value = q.2.value) kv1 kv2) : kvProjEq kv1 kv2 := by
  induction h with
  | nil => intro kid; rfl
  | @cons p q l1 l2 hpq hrest ih =>
    intro kid
    obtain ⟨hk, hkey, hval⟩ := hpq
    simp only [alLookup]
    by_cases hc : p.1 = kid
    · rw [if_pos hc, if_pos (hk ▸ hc)]
      simp [hkey, hval]
    · rw [if_neg hc, if_neg (hk ▸ hc)]
      exact ih kid

/-- When the decoded key ids are pairwise distinct, the seed map of `Update`
is exactly the indexed list of decoded entries. -/
theorem decodeKV_eq_map (Hf : Int → List Nat → Nat) (h : BigmapHistory)
    (hdist : ∀ i j, i < h.keyOffsets.length → j < h.keyOffsets.length →
      i ≠ j → (decodeAt Hf h i).keyId ≠ (decodeAt Hf h j).keyId) :
    decodeKV Hf h = (List.range h.keyOffsets.length).map
      (fun i => ((decodeAt Hf h i).keyId, decodeAt Hf h i)) := by
  unfold decodeKV
  exact foldl_alInsert_range
    (fun i => ((decodeAt Hf h i).keyId, decodeAt Hf h i))
    h.keyOffsets.length hdist

/-- Decoding a packed well-formed transient map yields a map with the same
live key/value set, itself well formed: the snapshot stage of `Build` and
`Update` loses no information visible to lookups. -/
theorem decodeKV_pack_proj (Hf : Int → List Nat → Nat) (id ht : Int)
    (kv : List (Nat × BigmapValue)) (hwf : KVWF Hf id kv) :
    kvProjEq (decodeKV Hf (packEntries id ht (kv.map (fun p => p.2)))) kv ∧
    KVWF Hf id (decodeKV Hf (packEntries id ht (kv.map (fun p => p.2)))) := by
  obtain ⟨hnd, hkeys⟩ := hwf
  obtain ⟨hkl, hvl, hkb, hvb, hdec⟩ :=
    packEntries_decode Hf id ht (kv.map (fun p => p.2))
  have hll : (kv.map (fun p => p.2)).length = kv.length := List.length_map _ _
  have hn : (packEntries id ht (kv.map (fun p =>
      p.2))).keyOffsets.length = kv.length := by rw [hkl, hll]
  have hbid : (packEntries id ht (kv.map (fun p => p.2))).bigmapId = id :=
    (packEntries_fields id ht _).1
  have hkid : ∀ (h2 : BigmapHistory) (i : Nat),
      (decodeAt Hf h2 i).keyId = Hf h2.bigmapId (decodeAt Hf h2 i).key :=
    fun h2 i => rfl
  have hgd : ∀ (i : Nat) (hi : i < kv.length),
      (kv.map (fun p => p.2)).getD i bv0 = (kv.get ⟨i, hi⟩).2 := by
    intro i hi
    rw [List.getD_eq_get _ _ (by rw [hll]; exact hi)]
    exact List.get_map _
  have hproj : ∀ (i : Nat) (hi : i < kv.length),
      (decodeAt Hf (packEntries id ht (kv.map (fun p => p.2))) i).key =
        (kv.get ⟨i, hi⟩).2.key ∧
      (decodeAt Hf (packEntries id ht (kv.map (fun p => p.2))) i).value =
        (kv.get ⟨i, hi⟩).2.value := by
    intro i hi
    have hd := hdec i (by rw [hll]; exact hi)
    rw [hgd i hi] at hd
    exact hd
  have hkeq : ∀ (i : Nat) (hi : i < kv.length),
      (decodeAt Hf (packEntries id ht (kv.map (fun p => p.2))) i).keyId =
        (kv.get ⟨i, hi⟩).1 := by
    intro i hi
    rw [hkid, hbid, (hproj i hi).1]
    exact (hkeys (kv.get ⟨i, hi⟩) (List.get_mem kv i hi)).symm
  have hinj := List.nodup_iff_injective_get.mp hnd
  have hdist : ∀ i j,
      i < (packEntries id ht (kv.map (fun p => p.2))).keyOffsets.length →
      j < (packEntries id ht (kv.map (fun p => p.2))).keyOffsets.length →
      i ≠ j →
      (decodeAt Hf (packEntries id ht (kv.map (fun p => p.2))) i).keyId ≠
      (decodeAt Hf (packEntries id ht (kv.map (fun p => p.2))) j).keyId := by
    intro i j hi hj hij heq
    rw [hn] at hi hj
    rw [hkeq i hi, hkeq j hj] at heq
    have hg : (kv.map Prod.fst).get ⟨i, by simpa using hi⟩ =
        (kv.map Prod.fst).get ⟨j, by simpa using hj⟩ := by
      rw [List.get_map, List.get_map]
      exact heq
    exact hij (by simpa using congrArg Fin.val (hinj hg))
  have hmap := decodeKV_eq_map Hf (packEntries id ht (kv.map (fun p => p.2)))
    hdist
  constructor
  · apply kvProjEq_of_forall2
    rw [hmap]
    rw [List.forall₂_iff_get]
    constructor
    · simp [hn]
    · intro i h1 h2
      have hget : ((List.range (packEntries id ht (kv.map (fun p =>
          p.2))).keyOffsets.length).map
            (fun i => ((decodeAt Hf (packEntries id ht (kv.map (fun p =>
              p.2))) i).keyId,
              decodeAt Hf (packEntries id ht (kv.map (fun p => p.2))) i))).get
            ⟨i, h1⟩ =
          ((decodeAt Hf (packEntries id ht (kv.map (fun p => p.2))) i).keyId,
            decodeAt Hf (packEntries id ht (kv.map (fun p => p.2))) i) := by
        rw [List.get_map]
        rw [List.get_range]
      rw [hget]
      exact ⟨hkeq i h2, (hproj i h2).1, (hproj i h2).2⟩
  · rw [hmap]
    constructor
    · rw [List.map_map]
      have hkeysEq : (List.range (packEntries id ht (kv.map (fun p =>
          p.2))).keyOffsets.length).map
            (Prod.fst ∘ (fun i => ((decodeAt Hf (packEntries id ht
              (kv.map (fun p => p.2))) i).keyId,
              decodeAt Hf (packEntries id ht (kv.map (fun p => p.2))) i))) =
          kv.map Prod.fst := by
        apply List.ext_get
        · simp [hn]
        · intro j hj1 hj2
          rw [List.get_map, List.get_map]
          have hjlt : j < kv.length := by simpa using hj2
          show (decodeAt Hf (packEntries id ht (kv.map (fun p => p.2)))
            ((List.range _).get ⟨j, _⟩)).keyId = (kv.get ⟨j, hjlt⟩).1
          rw [List.get_range]
          exact hkeq j hjlt
      rw [hkeysEq]
      exact hnd
    · intro p hp
      obtain ⟨i, hi, he⟩ := List.mem_map.mp hp
      rw [← he]
      show (decodeAt Hf (packEntries id ht (kv.map (fun p => p.2))) i).keyId =
        Hf id (decodeAt Hf (packEntries id ht (kv.map (fun p => p.2))) i).key
      rw [hkid, hbid]

/-- The empty transient map is well formed. -/
theorem KVWF_nil (Hf : Int → List Nat → Nat) (id : Int) : KVWF Hf id [] :=
  ⟨List.nodup_nil, fun p hp => absurd hp (List.not_mem_nil p)⟩

/-- Replaying one row whose key id is the hash of its key preserves
well-formedness of the transient map. -/
theorem replayStep_wf (Hf : Int → List Nat → Nat) (id : Int)
    (kv : List (Nat × BigmapValue)) (r : BigmapUpdate)
    (hwf : KVWF Hf id kv) (hr : r.keyId = Hf id r.key) :
    KVWF Hf id (replayStep kv r) := by
  obtain ⟨hnd, hkeys⟩ := hwf
  cases hact : r.action with
  | alloc =>
    rw [show replayStep kv r = kv by simp [replayStep, hact]]
    exact ⟨hnd, hkeys⟩
  | copy =>
    rw [show replayStep kv r = kv by simp [replayStep, hact]]
    exact ⟨hnd, hkeys⟩
  | update =>
    simp only [replayStep, hact]
    constructor
    · rw [alInsert_keys]
      split
      · exact hnd
      · rename_i hany
        have hmem : r.keyId ∉ kv.map Prod.fst := by
          intro hm
          obtain ⟨p, hp, hpk⟩ := List.mem_map.mp hm
          exact hany (List.any_eq_true.mpr ⟨p, hp, by simp [hpk]⟩)
        rw [List.nodup_append]
        refine ⟨hnd, List.nodup_singleton _, ?_⟩
        intro a ha hb
        simp only [List.mem_singleton] at hb
        exact hmem (hb ▸ ha)
    · intro p hp
      rcases mem_alInsert _ _ _ _ hp with h | h
      · exact hkeys p h
      · rw [h]
        exact hr
  | remove =>
    simp only [replayStep, hact]
    constructor
    · exact List.Nodup.sublist
        (List.Sublist.map Prod.fst (List.filter_sublist kv)) hnd
    · intro p hp
      exact hkeys p (List.mem_of_mem_filter hp)

/-- Replaying a list of rows whose key ids are hashes of their keys
preserves well-formedness. -/
theorem foldl_replayStep_wf (Hf : Int → List Nat → Nat) (id : Int)
    (rs : List BigmapUpdate) (hr : ∀ r ∈ rs, r.keyId = Hf id r.key) :
    ∀ kv, KVWF Hf id kv → KVWF Hf id (rs.foldl replayStep kv) := by
  induction rs with
  | nil => intro kv h; simpa using h
  | cons r rest ih =>
    intro kv h
    exact ih (fun q hq => hr q (List.mem_cons_of_mem _ hq)) _
      (replayStep_wf Hf id kv r h (hr r (List.mem_cons_self _ _)))

/-- C3.  For a height-sorted update log whose key ids are the hashes of
their keys, incrementally rolling the snapshot built at height `h1v`
forward to `h2v` with `Update` (seeded from the snapshot's decoded key set,
replaying rows with `h1v < height ≤ h2v`) yields a snapshot whose live
key/value set — every key id's key bytes and value — equals that of a fresh
`Build` at `h2v`. -/
theorem bigmap_history_incremental_update_eq_fresh_build
    (Hf : Int → List Nat → Nat) (log : List BigmapUpdate)
    (id h1v h2v : Int)
    (hsort : log.Pairwise (fun a b => a.height ≤ b.height))
    (hwf : ∀ r ∈ log, r.keyId = Hf r.bigmapId r.key)
    (hle : h1v ≤ h2v) :
    kvProjEq
      (decodeKV Hf (BigmapHistoryCache.Update Hf
        (BigmapHistoryCache.Build log id h1v) log h2v))
      (decodeKV Hf (BigmapHistoryCache.Build log id h2v)) := by
  have hrows1 : ∀ r ∈ log.filter (fun r => decide (r.bigmapId = id ∧
      r.height ≤ h1v)), r.keyId = Hf id r.key := by
    intro r hrm
    obtain ⟨hrl, hrp⟩ := List.mem_filter.mp hrm
    rw [← (of_decide_eq_true hrp).1]
    exact hwf r hrl
  have hrows2 : ∀ r ∈ log.filter (fun r => decide (r.bigmapId = id ∧
      h1v < r.height ∧ r.height ≤ h2v)), r.keyId = Hf id r.key := by
    intro r hrm
    obtain ⟨hrl, hrp⟩ := List.mem_filter.mp hrm
    rw [← (of_decide_eq_true hrp).1]
    exact hwf r hrl
  have hrows3 : ∀ r ∈ log.filter (fun r => decide (r.bigmapId = id ∧
      r.height ≤ h2v)), r.keyId = Hf id r.key := by
    intro r hrm
    obtain ⟨hrl, hrp⟩ := List.mem_filter.mp hrm
    rw [← (of_decide_eq_true hrp).1]
    exact hwf r hrl
  have hA : KVWF Hf id (buildKV log id h1v) :=
    foldl_replayStep_wf Hf id _ hrows1 [] (KVWF_nil Hf id)
  have hC : KVWF Hf id (buildKV log id h2v) :=
    foldl_replayStep_wf Hf id _ hrows3 [] (KVWF_nil Hf id)
  obtain ⟨hproj1, hwf1⟩ := decodeKV_pack_proj Hf id h1v (buildKV log id h1v) hA
  have hb1 : (BigmapHistoryCache.Build log id h1v).bigmapId = id := by
    unfold BigmapHistoryCache.Build
    exact (packEntries_fields id h1v
      ((buildKV log id h1v).map (fun p => p.2))).1
  have hh1 : (BigmapHistoryCache.Build log id h1v).height = h1v := by
    unfold BigmapHistoryCache.Build
    exact (packEntries_fields id h1v
      ((buildKV log id h1v).map (fun p => p.2))).2
  have hwf1b : KVWF Hf id (decodeKV Hf (BigmapHistoryCache.Build log id h1v)) :=
    hwf1
  have hUwf : KVWF Hf id
      ((log.filter (fun r => decide (r.bigmapId = id ∧
        h1v < r.height ∧ r.height ≤ h2v))).foldl replayStep
        (decodeKV Hf (BigmapHistoryCache.Build log id h1v))) :=
    foldl_replayStep_wf Hf id _ hrows2 _ hwf1b
  have hmid : kvProjEq
      ((log.filter (fun r => decide (r.bigmapId = id ∧
        h1v < r.height ∧ r.height ≤ h2v))).foldl replayStep
        (decodeKV Hf (BigmapHistoryCache.Build log id h1v)))
      (buildKV log id h2v) := by
    unfold buildKV
    rw [filter_height_partition id h1v h2v hle log hsort, List.foldl_append]
    apply foldl_replayStep_proj_congr
    exact hproj1
  obtain ⟨hproj2, h2wf⟩ := decodeKV_pack_proj Hf id h2v
    ((log.filter (fun r => decide (r.bigmapId = id ∧
      h1v < r.height ∧ r.height ≤ h2v))).foldl replayStep
      (decodeKV Hf (BigmapHistoryCache.Build log id h1v))) hUwf
  obtain ⟨hproj3, h3wf⟩ := decodeKV_pack_proj Hf id h2v (buildKV log id h2v) hC
  unfold BigmapHistoryCache.Update updateKV
  simp only [hb1, hh1]
  exact kvProjEq_trans _ _ _ (kvProjEq_trans _ _ _ hproj2 hmid)
    (kvProjEq_symm _ _ hproj3)

/-- C3 witness: the two-update log at heights 10 and 11, incrementally
updated from the height-10 snapshot to height 11, agrees with a fresh build
at height 11. -/
theorem bigmap_history_incremental_update_eq_fresh_build_witness :
    updLogW.Pairwise (fun a b => a.height ≤ b.height) ∧
    (∀ r ∈ updLogW, r.keyId = Hc r.bigmapId r.key) ∧
    (10 : Int) ≤ 11 ∧
    kvProjEq
      (decodeKV Hc (BigmapHistoryCache.Update Hc
        (BigmapHistoryCache.Build updLogW 1 10) updLogW 11))
      (decodeKV Hc (BigmapHistoryCache.Build updLogW 1 11)) :=
  ⟨by decide, by decide, by decide,
    bigmap_history_incremental_update_eq_fresh_build Hc updLogW 1 10 11
      (by decide) (by decide) (by decide)⟩

end TzIndex
